import Mathlib

/- The Batteries rational-number operations are marked irreducible, which
blocks `decide` on concrete rational computations; restore the default
reducibility so that witnesses can be checked by evaluation.  (The kernel
ignores reducibility attributes, so proofs are unaffected.) -/
set_option allowUnsafeReducibility true
attribute [semireducible] Rat.mul Rat.add Rat.inv Rat.sub Rat.neg

/-!
Verification development for the data-cleaning core of the repository
(`src/static/script.js`): CSV parsing (`parseCSV`, `parseCSVLine`),
missing-value statistics, the imputation engine (`processData`) and CSV
re-serialization (`prepareDownload`).

Text is modelled as `String` / `List Char`; JS numbers are idealised as
exact rationals (`Rat`); a table cell is a `Field` (string or number);
`undefined` showing up where the JS indexes past the end of an array is
modelled with `Option`.
-/

namespace CsvClean

/-! ## Characters and trimming (JS `String.prototype.trim`) -/

/-- The whitespace characters recognised by the model of JS `trim`
(the common ASCII whitespace plus NBSP; JS also trims a handful of
rarer Unicode space characters that never occur in the claims). -/
def isJsSpace (c : Char) : Bool :=
  c == ' ' || c == '\t' || c == '\n' || c == '\r' || c == '\x0b' || c == '\x0c' || c == ' '

/-- Model of JS `trim` on a character list: drop whitespace from both ends. -/
def jsTrim (l : List Char) : List Char :=
  ((l.dropWhile isJsSpace).reverse.dropWhile isJsSpace).reverse

/-! ## Splitting content on line breaks (JS `content.split('\n')`) -/

/-- JS `split('\n')`: cut the character stream at every newline; the empty
string yields one empty piece, a trailing newline yields a final empty piece. -/
def splitNl : List Char → List (List Char)
  | [] => [[]]
  | c :: cs =>
    if c = '\n' then [] :: splitNl cs
    else
      match splitNl cs with
      | t :: ts => (c :: t) :: ts
      | [] => [[c]]

/-! ## The CSV line parser (`parseCSVLine`, script.js lines 158-181) -/

/-- The character scan of `parseCSVLine`: a double quote toggles `inQuotes`
(and is itself dropped), an unquoted comma ends the current field, any other
character is appended to the current field; at end of line the last field is
emitted.  Fields are produced untrimmed here; `parseCSVLineChars` applies the
`trim` that the JS does at each `result.push(currentField.trim())`. -/
def parseCSVLineAux (inQ : Bool) : List Char → List (List Char)
  | [] => [[]]
  | c :: cs =>
    if c = '"' then parseCSVLineAux (!inQ) cs
    else if c = ',' ∧ inQ = false then [] :: parseCSVLineAux inQ cs
    else
      match parseCSVLineAux inQ cs with
      | f :: fs => (c :: f) :: fs
      | [] => [[c]]

/-- `parseCSVLine` on character lists: scan, then trim every field. -/
def parseCSVLineChars (l : List Char) : List (List Char) :=
  (parseCSVLineAux false l).map jsTrim

/-- `parseCSVLine(line)` (script.js lines 158-181). -/
def parseCSVLine (line : String) : List String :=
  (parseCSVLineChars line.data).map String.mk

/-! ## The JS `parseFloat` builtin -/

/-- Decimal digits read back as a natural number. -/
def digitsToNat (l : List Char) : Nat :=
  l.foldl (fun n c => 10 * n + (c.toNat - '0'.toNat)) 0

/-- Model of the JS `parseFloat` builtin (not itself repository source):
skip leading whitespace, an optional sign, then consume the longest prefix
of the shape `digits [ . digits ] [ (e|E) [sign] digits ]`; the rest of the
string is ignored.  Returns `none` (JS `NaN`) when no mantissa digit is
consumed.  The `Infinity` literal is not modelled and JS float64 values are
idealised as exact rationals; no claim depends on either refinement. -/
def jsParseFloat (s : String) : Option Rat :=
  let l := s.data.dropWhile isJsSpace
  let signAndRest : Rat × List Char :=
    match l with
    | '-' :: t => (-1, t)
    | '+' :: t => (1, t)
    | t => (1, t)
  let sign := signAndRest.1
  let l1 := signAndRest.2
  let intPart := l1.takeWhile Char.isDigit
  let r1 := l1.dropWhile Char.isDigit
  let fracAndRest : List Char × List Char :=
    match r1 with
    | '.' :: t => (t.takeWhile Char.isDigit, t.dropWhile Char.isDigit)
    | _ => ([], r1)
  let fracPart := fracAndRest.1
  let r2 := fracAndRest.2
  if intPart.isEmpty ∧ fracPart.isEmpty then none
  else
    let mant : Rat :=
      sign * ((digitsToNat intPart : Rat) + (digitsToNat fracPart : Rat) / (10 ^ fracPart.length))
    let expDigits : Option Int :=
      match r2 with
      | 'e' :: t | 'E' :: t =>
        match t with
        | '-' :: d =>
          if (d.takeWhile Char.isDigit).isEmpty then none
          else some (-(digitsToNat (d.takeWhile Char.isDigit) : Int))
        | '+' :: d =>
          if (d.takeWhile Char.isDigit).isEmpty then none
          else some (digitsToNat (d.takeWhile Char.isDigit) : Int)
        | d =>
          if (d.takeWhile Char.isDigit).isEmpty then none
          else some (digitsToNat (d.takeWhile Char.isDigit) : Int)
      | _ => none
    match expDigits with
    | some e => some (mant * (10 : Rat) ^ e)
    | none => some mant

/-! ## The data model -/

/-- A table cell: a string, or a number once the imputation engine has
written a fill value into it. -/
inductive Field : Type
  | str (s : String)
  | num (q : Rat)
deriving DecidableEq

/-- The derived statistics of a dataset.  `missingValues` is a JS object
keyed by header name, modelled as an association list in key-insertion
order (exactly how the JS object grows). -/
structure Stats : Type where
  totalRows : Nat
  missingValues : List (String × Nat)
deriving DecidableEq

/-- The in-memory dataset (`dataset` / `cleanedDataset` in script.js). -/
structure Dataset : Type where
  headers : List String
  rows : List (List Field)
  stats : Stats
deriving DecidableEq

/-- The key used for the missing-value object at column index `idx`:
`headers[idx]`, which for an index past the header length is the JS
`undefined`, coerced to the string form used as an object key. -/
def mvKey (headers : List String) (idx : Nat) : String :=
  (headers.get? idx).getD "undefined"

/-- `missingValues[k]` increment: `if (!mv[k]) mv[k] = 0; mv[k]++`
(script.js lines 145-148), preserving the object's key-insertion order. -/
def mvBump : List (String × Nat) → String → List (String × Nat)
  | [], k => [(k, 1)]
  | (k', n) :: t, k => if k' = k then (k', n + 1) :: t else (k', n) :: mvBump t k

/-- The missing-value statistics collected while parsing (script.js lines
138-151): every empty field of every row bumps the count for the header
name at that field's index. -/
def mvOfRows (headers : List String) (rows : List (List Field)) : List (String × Nat) :=
  rows.foldl
    (fun m row =>
      row.enum.foldl
        (fun m p => if p.2 = Field.str "" then mvBump m (mvKey headers p.1) else m)
        m)
    []

/-- Lookup in the missing-value object. -/
def mvLookup : List (String × Nat) → String → Option Nat
  | [], _ => none
  | (k, n) :: t, h => if k = h then some n else mvLookup t h

/-- `missingValues[h] || 0`: the missing count read back with JS's
absent-key default. -/
def mvCount (m : List (String × Nat)) (h : String) : Nat :=
  (mvLookup m h).getD 0

/-- `parseCSV(content)` (script.js lines 123-156): split on newlines, drop
lines that are empty after trimming, parse the first remaining line as the
header and the rest as rows, and collect missing-value statistics.
`none` models the ParseError when no line survives the filter (the JS
dereferences `lines[0]` of an empty array and throws). -/
def parseCSV (content : String) : Option Dataset :=
  let lines := (splitNl content.data).filter (fun l => !(jsTrim l).isEmpty)
  match lines with
  | [] => none
  | l0 :: rest =>
    let headers := (parseCSVLineChars l0).map String.mk
    let rows := rest.map (fun l => ((parseCSVLineChars l).map String.mk).map Field.str)
    some
      { headers := headers
        rows := rows
        stats :=
          { totalRows := rest.length  -- lines.length - 1
            missingValues := mvOfRows headers rows } }

/-! ## Serialization (`prepareDownload`, script.js lines 408-420) -/

/-- Strip trailing zero digits from a fraction part. -/
def stripZeros (l : List Char) : List Char :=
  (l.reverse.dropWhile (fun c => c == '0')).reverse

/-- Model of JS number-to-string for the finite decimals the engine
produces (fill values are always rounded to 4 decimal places, so their
denominator divides 10000): minimal decimal digits, no trailing zeros.
Other rationals never arise from the code and are printed as `num/den`. -/
def ratToString (q : Rat) : String :=
  if q.den = 1 then toString q.num
  else if 10000 % q.den = 0 then
    let m := q.num.natAbs * (10000 / q.den)
    let sign := if q.num < 0 then "-" else ""
    let ip := m / 10000
    let fp := m % 10000
    let fracDigits :=
      [Nat.digitChar (fp / 1000 % 10), Nat.digitChar (fp / 100 % 10),
       Nat.digitChar (fp / 10 % 10), Nat.digitChar (fp % 10)]
    sign ++ toString ip ++ "." ++ String.mk (stripZeros fracDigits)
  else toString q.num ++ "/" ++ toString q.den

/-- JS `field.replace(/"/g, '""')`. -/
def escapeQuotes (l : List Char) : List Char :=
  l.flatMap (fun c => if c = '"' then ['"', '"'] else [c])

/-- One serialized field (script.js lines 413-418): a string is wrapped in
double quotes (with internal quotes doubled) only when it contains a comma
or a newline; a number is printed via its decimal representation. -/
def serializeField : Field → List Char
  | Field.str s =>
    if s.data.contains ',' || s.data.contains '\n'
    then '"' :: (escapeQuotes s.data ++ ['"'])
    else s.data
  | Field.num q => (ratToString q).data

/-- JS `Array.prototype.join(sep)` on character lists. -/
def joinSep (sep : List Char) : List (List Char) → List Char
  | [] => []
  | [f] => f
  | f :: fs => f ++ sep ++ joinSep sep fs

/-- One serialized row: fields joined with commas. -/
def serializeRow (row : List Field) : List Char :=
  joinSep [','] (row.map serializeField)

/-- `prepareDownload`'s CSV text (script.js lines 410-420): the header
line, then every row line, each line terminated by a newline. -/
def serializeTable (ds : Dataset) : String :=
  String.mk
    ((joinSep [','] (ds.headers.map String.data) ++ ['\n']) ++
      (ds.rows.map (fun r => serializeRow r ++ ['\n'])).flatten)

/-! ## The imputation engine (`processData`, script.js lines 274-380) -/

/-- The cleaning strategy selected by the user. -/
inductive Method : Type
  | drop | mean | median | mode | knn
deriving DecidableEq

/-- A collected column value as the JS sees it: `row[colIndex]` is
`undefined` (here `none`) when the row is shorter than the header. -/
def cellAt (row : List Field) (col : Nat) : Option Field :=
  row.get? col

/-- `result.rows.map(row => row[colIndex]).filter(val => val !== '')`
(script.js line 301): the column's values with the empty strings removed;
`undefined` cells of short rows pass the filter, as in JS. -/
def collectValues (ds : Dataset) (col : Nat) : List (Option Field) :=
  (ds.rows.map (fun row => cellAt row col)).filter
    (fun v => !(v == some (Field.str "")))

/-- `parseFloat(val)` on a collected value: `parseFloat(undefined)` is NaN,
`parseFloat` of a number recovers the number, a string is parsed by the
`parseFloat` grammar. -/
def parseFloatOpt : Option Field → Option Rat
  | none => none
  | some (Field.num q) => some q
  | some (Field.str s) => jsParseFloat s

/-- `values.map(parseFloat-or-keep)` together with the
`numericValues.every(val => typeof val === 'number')` check (script.js
lines 308-314): `some nums` exactly when every collected value parses,
in which case `nums` is the parsed list in order. -/
def parseAll (f : Option Field → Option Rat) : List (Option Field) → Option (List Rat)
  | [] => some []
  | v :: vs =>
    match f v, parseAll f vs with
    | some q, some qs => some (q :: qs)
    | _, _ => none

/-- The frequency scan of the mode computation (script.js lines 326-337 and
344-355): walk the list once, bump the value's count, and replace the
running mode whenever the new count strictly exceeds the running maximum. -/
def modeScan {α : Type} [DecidableEq α] (freq : α → Nat) (mx : Nat) (md : α) :
    List α → α
  | [] => md
  | v :: vs =>
    let f := freq v + 1
    let freq' : α → Nat := fun w => if w = v then f else freq w
    if mx < f then modeScan freq' f v vs else modeScan freq' mx md vs

/-- `let max = 0; let mode = values[0]; values.forEach(...)`: the JS mode
of a list (none for the empty list, whose JS mode would be `undefined`
via `values[0]`, a case the code rules out beforehand). -/
def jsMode {α : Type} [DecidableEq α] : List α → Option α
  | [] => none
  | v :: vs => some (modeScan (fun _ => 0) 0 v (v :: vs))

/-- The string a collected column value is coerced to when used as a JS
object property key (`frequency[val]`): `String(undefined)` is
`"undefined"`, a string is itself, a number is its decimal text.  Distinct
values can share a key — a collected `undefined` collides with the literal
string `"undefined"` — and the frequency object then holds one merged
counter for them. -/
def jsKey : Option Field → String
  | none => "undefined"
  | some (Field.str s) => s
  | some (Field.num q) => ratToString q

/-- The frequency scan of the non-numeric mode branch (script.js lines
344-355), with the JS property-key coercion made explicit: counts are kept
per string key `key v`, while the running mode remembers the value `v`
itself. -/
def modeScanKey {α : Type} (key : α → String) (freq : String → Nat) (mx : Nat)
    (md : α) : List α → α
  | [] => md
  | v :: vs =>
    let f := freq (key v) + 1
    let freq' : String → Nat := fun w => if w = key v then f else freq w
    if mx < f then modeScanKey key freq' f v vs else modeScanKey key freq' mx md vs

/-- The JS mode of a list under string-key coercion of the frequency
object's property names. -/
def jsModeKey {α : Type} (key : α → String) : List α → Option α
  | [] => none
  | v :: vs => some (modeScanKey key (fun _ => 0) 0 v (v :: vs))

/-- `sum / numericValues.length` (script.js lines 318-319). -/
def jsMean (nums : List Rat) : Rat :=
  nums.foldl (· + ·) 0 / (nums.length : Rat)

/-- Insertion step of the ascending sort. -/
def sortInsert (x : Rat) : List Rat → List Rat
  | [] => [x]
  | y :: ys => if x ≤ y then x :: y :: ys else y :: sortInsert x ys

/-- Model of `[...numericValues].sort((a, b) => a - b)`: the ascending
reordering (unique for rationals, so the sorting algorithm is immaterial). -/
def sortRats (l : List Rat) : List Rat :=
  l.foldr sortInsert []

/-- The fill value of a numeric column (script.js lines 316-340); `none`
models `fillValues[colIndex]` being left `undefined` (no `if` branch fires,
which for `drop` is unreachable anyway).  In this branch every collected
value is a number, and JS number-to-string is injective on distinct
numbers, so the string-keyed frequency object of the source coincides with
the value-keyed scan used here. -/
def numericFill (m : Method) (nums : List Rat) : Option Field :=
  match m with
  | Method.mean => some (Field.num (jsMean nums))
  | Method.median =>
    let sorted := sortRats nums
    let mid := sorted.length / 2
    some (Field.num
      (if sorted.length % 2 ≠ 0 then sorted.getD mid 0
       else (sorted.getD (mid - 1) 0 + sorted.getD mid 0) / 2))
  | Method.mode => (jsMode nums).map Field.num
  | Method.knn => (jsMode nums).map Field.num
  | Method.drop => none

/-- The fill value of a non-numeric column (script.js lines 341-359):
mode/knn take the value whose string key (`frequency[val]` coerces its
property key, so `undefined` and `"undefined"` share one counter) first
drives its merged count past the running maximum; mean/median compute
nothing, leaving `fillValues[colIndex]` undefined.  A mode value of `none`
(a JS `undefined` collected from a short row) also behaves as "no fill",
because the application step tests `fillValues[colIndex] !== undefined`. -/
def textFill (m : Method) (values : List (Option Field)) : Option Field :=
  match m with
  | Method.mode => (jsModeKey jsKey values).join
  | Method.knn => (jsModeKey jsKey values).join
  | _ => none

/-- The per-column fill-value computation (script.js lines 300-360):
an all-missing column gets the fill value `''`; otherwise the column is
numeric when every collected value parses, and the strategy's numeric or
text rule applies. -/
def computeFill (m : Method) (values : List (Option Field)) : Option Field :=
  if values.length = 0 then some (Field.str "")
  else
    match parseAll parseFloatOpt values with
    | some nums => numericFill m nums
    | none => textFill m values

/-- `fillValues[colIndex]` after the `result.headers.forEach` loop: only
indices below the header length get an entry. -/
def fillValues (m : Method) (ds : Dataset) (col : Nat) : Option Field :=
  if col < ds.headers.length then computeFill m (collectValues ds col) else none

/-- The floor of a rational, written on the numerator and denominator so
that the kernel can evaluate it (`Int./` is Euclidean division, which for
the positive denominator is floor division). -/
def ratFloor (q : Rat) : Int :=
  q.num / q.den

/-- `x.toFixed(4)` then `parseFloat`: round to 4 decimal places
(round-half-up, as the toFixed specification picks the larger candidate). -/
def round4 (q : Rat) : Rat :=
  (ratFloor (q * 10000 + 1 / 2) : Rat) / 10000

/-- `if (typeof fill === 'number') row[colIndex] = parseFloat(fill.toFixed(4))`
(script.js lines 369-371): numeric fill values are rounded on assignment. -/
def roundFill : Field → Field
  | Field.num q => Field.num (round4 q)
  | f => f

/-- One cell of the application step (script.js lines 363-374): a cell at a
header index that is the empty string and has a fill value is replaced by
the (rounded) fill value; every other cell is untouched. -/
def applyCell (headers : List String) (fill : Nat → Option Field) (i : Nat)
    (v : Field) : Field :=
  if i < headers.length then
    if v = Field.str "" then
      match fill i with
      | some f => roundFill f
      | none => v
    else v
  else v

/-- The application step over one row, carrying the column index.  The JS
iterates `colIndex` over the header indices; cells past the header length
are untouched, and header indices past the row length compare `undefined`
to `''` and do nothing, so the row never grows. -/
def applyRow (headers : List String) (fill : Nat → Option Field) :
    Nat → List Field → List Field
  | _, [] => []
  | i, v :: vs => applyCell headers fill i v :: applyRow headers fill (i + 1) vs

/-- The application step over one row. -/
def applyFill (headers : List String) (fill : Nat → Option Field)
    (row : List Field) : List Field :=
  applyRow headers fill 0 row

/-- `processData(method, knnNeighbors)` (script.js lines 274-380) as a pure
function of the dataset.  The deep copy of lines 276-283 makes the function
operate on a snapshot; `drop` filters out the rows containing an empty
field and returns early (keeping the copied `missingValues`!), while the
fill strategies compute per-column fill values, rewrite the empty cells,
and reset `missingValues` to the empty object.  `knnNeighbors` is accepted
and ignored, as in the source. -/
def processData (m : Method) (knnNeighbors : Nat) (ds : Dataset) : Dataset :=
  match m with
  | Method.drop =>
    let rows := ds.rows.filter (fun row => !(row.any (fun cell => cell == Field.str "")))
    { headers := ds.headers
      rows := rows
      stats := { totalRows := rows.length, missingValues := ds.stats.missingValues } }
  | _ =>
    let fill := fillValues m ds
    { headers := ds.headers
      rows := ds.rows.map (applyFill ds.headers fill)
      stats := { totalRows := ds.stats.totalRows, missingValues := [] } }

/-! ## Derived observation functions and concrete example data -/

/-- The number of occurrences of `a` in `l` (the frequency a value attains
in a collected column). -/
def countVal {α : Type} [DecidableEq α] (a : α) (l : List α) : Nat :=
  (l.filter (fun x => decide (x = a))).length

/-- The number of rows whose field at column index `i` is the empty string
(the quantity claim C2 asserts `missingValues[h]` to equal). -/
def rowsMissingAt (ds : Dataset) (i : Nat) : Nat :=
  (ds.rows.filter (fun r => r.get? i == some (Field.str ""))).length

/-- The number of empty fields of `row` sitting at an index whose
missing-value key (header name, or "undefined" past the header) is `h`. -/
def rowEmptyKeyed (headers : List String) (h : String) (row : List Field) : Nat :=
  (row.enum.filter (fun p => decide (p.2 = Field.str "" ∧ mvKey headers p.1 = h))).length

/-- A dataset with one column and one row whose only cell is missing. -/
def exC1 : Dataset :=
  { headers := ["a"]
    rows := [[Field.str ""]]
    stats := { totalRows := 1, missingValues := [("a", 1)] } }

/-- The dataset `parseCSV` produces from the content `"a,a\n,"` with
duplicate header names. -/
def exC2 : Dataset :=
  { headers := ["a", "a"]
    rows := [[Field.str "", Field.str ""]]
    stats := { totalRows := 1, missingValues := [("a", 2)] } }

/-- The spec's end-to-end example dataset (`name,age` with one missing age
and one missing name). -/
def exC8 : Dataset :=
  { headers := ["name", "age"]
    rows := [[Field.str "Ann", Field.str "30"],
             [Field.str "Bob", Field.str ""],
             [Field.str "", Field.str "25"]]
    stats := { totalRows := 3, missingValues := [("age", 1), ("name", 1)] } }

/-- A single-column dataset whose collected values are b, a, a, b (a
frequency tie in which "b" is encountered first) plus one missing cell. -/
def exC4 : Dataset :=
  { headers := ["h"]
    rows := [[Field.str "b"], [Field.str "a"], [Field.str "a"],
             [Field.str "b"], [Field.str ""]]
    stats := { totalRows := 5, missingValues := [("h", 1)] } }

/-! ## A store-level model of the deep copy (claim C9)

The pure model above cannot express mutation, so the frame claim — clean
never mutates its input — is settled against a store-level rendering of
`processData` in which row arrays live in a heap and `row[colIndex] = ...`
is a heap write.  Headers and stats objects are copied by value in both
models (`[...dataset.headers]`, `{...dataset.stats}`) and the source never
writes through the originals, so only the row arrays need addresses. -/

/-- A heap of row arrays, addressed by allocation index.  A write through
one reference to an address is visible through every alias of it. -/
structure RowHeap : Type where
  cells : List (List Field)
deriving DecidableEq

/-- Read the row array at address `a` (an invalid address reads `[]`). -/
def heapRead (h : RowHeap) (a : Nat) : List Field :=
  (h.cells.get? a).getD []

/-- `row[i] = v` performed on the row array at address `a`. -/
def heapWrite (h : RowHeap) (a i : Nat) (v : Field) : RowHeap :=
  ⟨h.cells.set a ((heapRead h a).set i v)⟩

/-- Allocate fresh row arrays at the end of the heap and return their
addresses. -/
def allocRows (h : RowHeap) (rs : List (List Field)) : RowHeap × List Nat :=
  (⟨h.cells ++ rs⟩, (List.range rs.length).map (fun i => i + h.cells.length))

/-- A dataset whose rows are references into a `RowHeap`. -/
structure DatasetRef : Type where
  headers : List String
  rowAddrs : List Nat
  stats : Stats
deriving DecidableEq

/-- `processData` at the store level (script.js lines 274-380).  The deep
copy of lines 276-283 allocates fresh row arrays holding the contents of
the input's rows (`rows.map(row => [...row])`); `drop` merely selects
among the copied references, and the fill strategies write the fill values
into the copied rows in place (lines 362-374). -/
def processDataHeap (m : Method) (knnNeighbors : Nat) (h0 : RowHeap)
    (ds : DatasetRef) : RowHeap × DatasetRef :=
  let copies := ds.rowAddrs.map (heapRead h0)
  let h1 := (allocRows h0 copies).1
  let addrs := (allocRows h0 copies).2
  match m with
  | Method.drop =>
    let kept := addrs.filter
      (fun a => !((heapRead h1 a).any (fun cell => cell == Field.str "")))
    (h1,
      { headers := ds.headers
        rowAddrs := kept
        stats := { totalRows := kept.length, missingValues := ds.stats.missingValues } })
  | _ =>
    let dsCopy : Dataset :=
      { headers := ds.headers, rows := addrs.map (heapRead h1), stats := ds.stats }
    let fill := fillValues m dsCopy
    let h2 := addrs.foldl
      (fun h a =>
        (List.range ds.headers.length).foldl
          (fun h i =>
            if (heapRead h a).get? i = some (Field.str "") then
              match fill i with
              | some f => heapWrite h a i (roundFill f)
              | none => h
            else h)
          h)
      h1
    (h2,
      { headers := ds.headers
        rowAddrs := addrs
        stats := { totalRows := ds.stats.totalRows, missingValues := [] } })

/-- The value-level dataset a `DatasetRef` denotes in a heap. -/
def derefDataset (h : RowHeap) (ds : DatasetRef) : Dataset :=
  { headers := ds.headers
    rows := ds.rowAddrs.map (heapRead h)
    stats := ds.stats }

/-- The heap and dataset reference holding claim C9's witness dataset. -/
def exC9Heap : RowHeap := ⟨[[Field.str ""], [Field.str "3"]]⟩

/-- The dataset reference of the C9 witness: two rows at addresses 0, 1. -/
def exC9 : DatasetRef :=
  { headers := ["h"]
    rowAddrs := [0, 1]
    stats := { totalRows := 2, missingValues := [("h", 1)] } }

/-- The dataset `parseCSV` produces from `"A,B\na\nb,undefined\nc,y\nd,y\ne,"`:
its B column collects a JS `undefined` (from the short row `a`), the
literal string `"undefined"`, and `"y"` twice, plus one missing cell. -/
def exC4b : Dataset :=
  { headers := ["A", "B"]
    rows := [[Field.str "a"],
             [Field.str "b", Field.str "undefined"],
             [Field.str "c", Field.str "y"],
             [Field.str "d", Field.str "y"],
             [Field.str "e", Field.str ""]]
    stats := { totalRows := 5, missingValues := [("B", 1)] } }

/-! ## Theorems -/

/-- Claim C1, counterexample: for the drop strategy the cleaned dataset's
missingValues map is not empty — the drop branch returns before the reset
on script.js line 377, so the copied input counts survive.  On a dataset
whose single column has one missing cell, the cleaned missingValues still
maps "a" to 1. -/
theorem drop_missing_not_reset :
    (processData Method.drop 5 exC1).stats.missingValues = [("a", 1)] ∧
    mvCount (processData Method.drop 5 exC1).stats.missingValues "a" ≠ 0 := by
  exact ⟨rfl, by decide⟩

/-- Claim C1, amended: for the drop strategy the cleaned dataset's
missingValues map is the unchanged (copied) missingValues of the input —
it is empty only when the input's was. -/
theorem drop_missing_unchanged (ds : Dataset) (k : Nat) :
    (processData Method.drop k ds).stats.missingValues = ds.stats.missingValues := rfl

/-- Claim C5: for every dataset and every neighbor count, cleaning with the
knn strategy returns exactly the same dataset as cleaning with mode — every
branch of processData treats knn and mode identically and knnNeighbors is
never read. -/
theorem knn_aliases_mode (ds : Dataset) (k k' : Nat) :
    processData Method.knn k ds = processData Method.mode k' ds := rfl

/-- Claim C7: for the drop strategy the cleaned rows are exactly the input
rows containing no empty-string field, in their original order; totalRows
is the retained count; hence the output row count is at most the input row
count and no output row contains an empty field. -/
theorem drop_rows_characterization (ds : Dataset) (k : Nat) :
    (processData Method.drop k ds).rows
        = ds.rows.filter (fun row => decide (Field.str "" ∉ row)) ∧
    (processData Method.drop k ds).stats.totalRows
        = (processData Method.drop k ds).rows.length ∧
    (processData Method.drop k ds).rows.length ≤ ds.rows.length ∧
    ∀ row ∈ (processData Method.drop k ds).rows, ∀ cell ∈ row, cell ≠ Field.str "" := by
  have hrowseq : (processData Method.drop k ds).rows
      = ds.rows.filter (fun row => decide (Field.str "" ∉ row)) := by
    show ds.rows.filter _ = ds.rows.filter _
    apply List.filter_congr
    intro row _
    rw [Bool.eq_iff_iff, decide_eq_true_eq, Bool.not_eq_true', List.any_eq_false]
    constructor
    · intro h hmem
      exact absurd (beq_self_eq_true (Field.str "")) (h _ hmem)
    · intro h x hx hxe
      exact h ((beq_iff_eq.mp hxe) ▸ hx)
  refine ⟨hrowseq, rfl, List.length_filter_le _ _, ?_⟩
  intro row hrow cell hcell
  rw [hrowseq] at hrow
  have hp := List.of_mem_filter hrow
  intro hcontra
  subst hcontra
  exact (of_decide_eq_true hp) hcell

/-! ### Claim C2: missing-value statistics of `parseCSV` -/

theorem mvCount_mvBump (m : List (String × Nat)) (k h : String) :
    mvCount (mvBump m k) h = mvCount m h + (if k = h then 1 else 0) := by
  induction m with
  | nil =>
    by_cases hk : k = h <;> simp [mvBump, mvCount, mvLookup, hk]
  | cons p t ih =>
    obtain ⟨k', n⟩ := p
    by_cases hk' : k' = k
    · subst hk'
      by_cases hk : k' = h <;> simp [mvBump, mvCount, mvLookup, hk]
    · by_cases hh : k' = h
      · subst hh
        have hkh : ¬k = k' := fun hc => hk' hc.symm
        simp [mvBump, mvCount, mvLookup, hk', hkh]
      · simp only [mvBump, if_neg hk', mvCount, mvLookup, if_neg hh]
        exact ih

theorem mvCount_foldRow (headers : List String) (h : String)
    (l : List (Nat × Field)) :
    ∀ m : List (String × Nat),
      mvCount
        (l.foldl
          (fun m p => if p.2 = Field.str "" then mvBump m (mvKey headers p.1) else m)
          m) h
      = mvCount m h
        + (l.filter (fun p => decide (p.2 = Field.str "" ∧ mvKey headers p.1 = h))).length := by
  induction l with
  | nil => intro m; simp
  | cons p t ih =>
    intro m
    simp only [List.foldl_cons, List.filter_cons]
    by_cases hemp : p.2 = Field.str ""
    · rw [if_pos hemp, ih, mvCount_mvBump]
      by_cases hkey : mvKey headers p.1 = h
      · rw [if_pos (decide_eq_true ⟨hemp, hkey⟩)]
        rw [if_pos hkey]
        simp only [List.length_cons]
        omega
      · rw [if_neg hkey,
          if_neg (show ¬(decide (p.2 = Field.str "" ∧ mvKey headers p.1 = h) = true) by
            simp [hkey])]
        omega
    · rw [if_neg hemp, ih, if_neg (by simp [hemp])]

theorem mvCount_mvOfRows (headers : List String) (h : String)
    (rows : List (List Field)) :
    mvCount (mvOfRows headers rows) h = (rows.map (rowEmptyKeyed headers h)).sum := by
  suffices hgen : ∀ m : List (String × Nat),
      mvCount
        (rows.foldl
          (fun m row =>
            row.enum.foldl
              (fun m p => if p.2 = Field.str "" then mvBump m (mvKey headers p.1) else m)
              m)
          m) h
      = mvCount m h + (rows.map (rowEmptyKeyed headers h)).sum by
    have := hgen []
    simpa [mvOfRows, mvCount, mvLookup] using this
  induction rows with
  | nil => intro m; simp
  | cons row t ih =>
    intro m
    simp only [List.foldl_cons, List.map_cons, List.sum_cons]
    rw [ih, mvCount_foldRow]
    simp [rowEmptyKeyed]
    omega

/-- Claim C2, amended: for every dataset produced by `parseCSV` and every
name `h`, `missingValues[h]` is the total number of empty fields over all
column positions whose key is `h` — with duplicate header names the counts
of all columns sharing the name are summed into the single key. -/
theorem parse_missing_counts (content : String) (ds : Dataset) (h : String)
    (hp : parseCSV content = some ds) :
    mvCount ds.stats.missingValues h = (ds.rows.map (rowEmptyKeyed ds.headers h)).sum := by
  unfold parseCSV at hp
  rcases hLines : (splitNl content.data).filter (fun l => !(jsTrim l).isEmpty) with
    _ | ⟨l0, rest⟩
  · rw [hLines] at hp
    exact absurd hp (by simp)
  · rw [hLines] at hp
    simp only [Option.some.injEq] at hp
    subst hp
    exact mvCount_mvOfRows _ _ _

/-- Claim C2, counterexample: with duplicate header names, a parsed
dataset's `missingValues["a"]` is 2 while the number of rows whose field at
either index named "a" is empty is 1 — the object key accumulates the
counts of both columns, so the per-column reading of the claim fails. -/
theorem parse_missing_dup_headers_cex :
    parseCSV "a,a\n," = some exC2 ∧
    exC2.headers = ["a", "a"] ∧
    mvCount exC2.stats.missingValues "a" = 2 ∧
    rowsMissingAt exC2 0 = 1 ∧
    rowsMissingAt exC2 1 = 1 := by
  refine ⟨by decide, rfl, by decide, by decide, by decide⟩

/-- Witness for the amended claim C2 at the concrete content `"a,a\n,"`. -/
theorem parse_missing_counts_witness :
    mvCount exC2.stats.missingValues "a"
      = (exC2.rows.map (rowEmptyKeyed exC2.headers "a")).sum :=
  parse_missing_counts "a,a\n," exC2 "a" (by decide)

/-! ### Claim C3: numeric-column detection -/

theorem parseAll_eq_some_of_all (f : Option Field → Option Rat) :
    ∀ l : List (Option Field), (∀ v ∈ l, (f v).isSome) →
      ∃ bs, parseAll f l = some bs := by
  intro l
  induction l with
  | nil => intro _; exact ⟨[], rfl⟩
  | cons v vs ih =>
    intro hall
    obtain ⟨q, hq⟩ := Option.isSome_iff_exists.mp (hall v (List.mem_cons_self v vs))
    obtain ⟨bs, hbs⟩ := ih (fun w hw => hall w (List.mem_cons_of_mem v hw))
    exact ⟨q :: bs, by simp [parseAll, hq, hbs]⟩

theorem parseAll_eq_none_of_bad (f : Option Field → Option Rat) :
    ∀ l : List (Option Field), (∃ v ∈ l, f v = none) →
      parseAll f l = none := by
  intro l
  induction l with
  | nil => rintro ⟨v, hv, _⟩; exact absurd hv (List.not_mem_nil v)
  | cons v vs ih =>
    rintro ⟨w, hw, hwn⟩
    rcases List.mem_cons.mp hw with hvw | hvs
    · subst hvw
      simp [parseAll, hwn]
    · rw [parseAll, ih ⟨w, hvs, hwn⟩]
      rcases f v with _ | q <;> rfl

/-- Claim C3: during clean with strategy mean, median, mode, or knn, a
column is treated as numeric — its fill value is computed by the numeric
branch on the parsed numbers — if and only if every collected non-empty
value parses as a floating-point number; a single non-parsing value demotes
the whole column to the text branch. -/
theorem numeric_demotion (m : Method) (values : List (Option Field))
    (hm : m = Method.mean ∨ m = Method.median ∨ m = Method.mode ∨ m = Method.knn)
    (hne : values ≠ []) :
    ((∀ v ∈ values, (parseFloatOpt v).isSome) →
      ∃ nums, parseAll parseFloatOpt values = some nums ∧
        computeFill m values = numericFill m nums) ∧
    ((∃ v ∈ values, parseFloatOpt v = none) →
      parseAll parseFloatOpt values = none ∧
        computeFill m values = textFill m values) := by
  clear hm
  have hlen : ¬values.length = 0 := fun hc => hne (List.length_eq_zero.mp hc)
  constructor
  · intro hall
    obtain ⟨nums, hnums⟩ := parseAll_eq_some_of_all parseFloatOpt values hall
    refine ⟨nums, hnums, ?_⟩
    rw [computeFill, if_neg hlen, hnums]
  · intro hbad
    have hnone := parseAll_eq_none_of_bad parseFloatOpt values hbad
    refine ⟨hnone, ?_⟩
    rw [computeFill, if_neg hlen, hnone]

/-- Witness for claim C3: a two-value column with one non-numeric value is
demoted to text handling under strategy mean. -/
theorem numeric_demotion_witness :
    parseAll parseFloatOpt [some (Field.str "1"), some (Field.str "x")] = none ∧
      computeFill Method.mean [some (Field.str "1"), some (Field.str "x")]
        = textFill Method.mean [some (Field.str "1"), some (Field.str "x")] :=
  (numeric_demotion Method.mean [some (Field.str "1"), some (Field.str "x")]
    (Or.inl rfl) (by decide)).2 ⟨some (Field.str "x"), by decide, by decide⟩

/-! ### Claim C10: what the fill strategies can and cannot change -/

theorem applyRow_get? (headers : List String) (fill : Nat → Option Field) :
    ∀ (l : List Field) (i j : Nat),
      (applyRow headers fill i l).get? j = (l.get? j).map (applyCell headers fill (i + j)) := by
  intro l
  induction l with
  | nil => intro i j; rfl
  | cons v vs ih =>
    intro i j
    cases j with
    | zero => rfl
    | succ j' =>
      show (applyRow headers fill (i + 1) vs).get? j' = _
      rw [ih (i + 1) j']
      have : i + 1 + j' = i + (j' + 1) := by omega
      rw [this]
      rfl

theorem applyRow_length (headers : List String) (fill : Nat → Option Field) :
    ∀ (l : List Field) (i : Nat), (applyRow headers fill i l).length = l.length := by
  intro l
  induction l with
  | nil => intro i; rfl
  | cons v vs ih => intro i; simp [applyRow, ih]

theorem applyCell_ne_empty (headers : List String) (fill : Nat → Option Field)
    (i : Nat) (v : Field) (hv : v ≠ Field.str "") :
    applyCell headers fill i v = v := by
  unfold applyCell
  rw [if_neg hv]
  split <;> rfl

/-- Claim C10: for the strategies mean, median, mode and knn, clean
preserves the header sequence, the number and order of the rows, and the
value of every field that was not the empty string; only empty-string
fields can differ in the output. -/
theorem fill_preserves_nonempty (m : Method) (k : Nat) (ds : Dataset)
    (hm : m = Method.mean ∨ m = Method.median ∨ m = Method.mode ∨ m = Method.knn) :
    (processData m k ds).headers = ds.headers ∧
    (processData m k ds).rows.length = ds.rows.length ∧
    (∀ i, ((processData m k ds).rows.get? i).isSome ↔ (ds.rows.get? i).isSome) ∧
    ∀ i row j v, ds.rows.get? i = some row → row.get? j = some v →
      v ≠ Field.str "" →
      ∃ row', (processData m k ds).rows.get? i = some row' ∧ row'.get? j = some v := by
  have hrows : (processData m k ds).rows
      = ds.rows.map (applyFill ds.headers (fillValues m ds)) := by
    rcases hm with rfl | rfl | rfl | rfl <;> rfl
  have hhead : (processData m k ds).headers = ds.headers := by
    rcases hm with rfl | rfl | rfl | rfl <;> rfl
  refine ⟨hhead, by rw [hrows]; simp, ?_, ?_⟩
  · intro i
    rw [hrows, List.get?_map]
    cases ds.rows.get? i <;> simp
  · intro i row j v hrow hcell hv
    refine ⟨applyFill ds.headers (fillValues m ds) row, ?_, ?_⟩
    · rw [hrows, List.get?_map, hrow]; rfl
    · show (applyRow ds.headers (fillValues m ds) 0 row).get? j = some v
      rw [applyRow_get?, hcell]
      simp [applyCell_ne_empty _ _ _ _ hv]

/-- Witness for claim C10 on the spec's example dataset under strategy
mean: the non-empty name "Ann" survives cleaning unchanged. -/
theorem fill_preserves_nonempty_witness :
    ∃ row', (processData Method.mean 5
        { headers := ["name", "age"]
          rows := [[Field.str "Ann", Field.str "30"], [Field.str "Bob", Field.str ""]]
          stats := { totalRows := 2, missingValues := [("age", 1)] } }).rows.get? 0
      = some row' ∧ row'.get? 0 = some (Field.str "Ann") :=
  (fill_preserves_nonempty Method.mean 5 _ (Or.inl rfl)).2.2.2 0
    [Field.str "Ann", Field.str "30"] 0 (Field.str "Ann") rfl rfl (by decide)

/-! ### Claim C8: the mean strategy -/

/-- Claim C8: for strategy mean on a column treated as numeric, the fill
value is the arithmetic mean of the parsed numbers, and every empty field
in that column is set to that value rounded to 4 decimal places. -/
theorem mean_fill_rounds (ds : Dataset) (k col : Nat) (nums : List Rat)
    (hcol : col < ds.headers.length)
    (hne : collectValues ds col ≠ [])
    (hnums : parseAll parseFloatOpt (collectValues ds col) = some nums) :
    fillValues Method.mean ds col = some (Field.num (jsMean nums)) ∧
    ∀ i row, ds.rows.get? i = some row → row.get? col = some (Field.str "") →
      ∃ row', (processData Method.mean k ds).rows.get? i = some row' ∧
        row'.get? col = some (Field.num (round4 (jsMean nums))) := by
  have hlen : ¬(collectValues ds col).length = 0 :=
    fun hc => hne (List.length_eq_zero.mp hc)
  have hfill : fillValues Method.mean ds col = some (Field.num (jsMean nums)) := by
    unfold fillValues
    rw [if_pos hcol]
    unfold computeFill
    rw [if_neg hlen, hnums]
    rfl
  refine ⟨hfill, ?_⟩
  intro i row hrow hcell
  refine ⟨applyFill ds.headers (fillValues Method.mean ds) row, ?_, ?_⟩
  · show (ds.rows.map (applyFill ds.headers (fillValues Method.mean ds))).get? i = _
    rw [List.get?_map, hrow]
    rfl
  · show (applyRow ds.headers (fillValues Method.mean ds) 0 row).get? col = _
    rw [applyRow_get?, hcell]
    show some (applyCell ds.headers (fillValues Method.mean ds) (0 + col) (Field.str "")) = _
    rw [Nat.zero_add]
    unfold applyCell
    rw [if_pos hcol, if_pos rfl, hfill]
    rfl

/-- The spec side of the rounding model: `ratFloor` is the floor. -/
theorem ratFloor_eq_floor (q : Rat) : ratFloor q = ⌊q⌋ :=
  Rat.floor_def.symm

/-- `round4` is rounding to the nearest 4-decimal value (half up). -/
theorem round4_eq_round (q : Rat) : round4 q = (round (q * 10000) : Int) / 10000 := by
  rw [round4, ratFloor_eq_floor, round_eq]

/-- Witness for claim C8: on the spec's example, the age column's fill
value is the mean 27.5 of [30, 25], and Bob's missing age becomes 27.5;
the mean of [1, 2] likewise fills as 1.5. -/
theorem mean_fill_rounds_witness :
    (fillValues Method.mean exC8 1 = some (Field.num (jsMean [30, 25])) ∧
      ∃ row', (processData Method.mean 5 exC8).rows.get? 1 = some row' ∧
        row'.get? 1 = some (Field.num (round4 (jsMean [30, 25])))) ∧
    jsMean [(30 : Rat), 25] = 55 / 2 ∧
    round4 (jsMean [(30 : Rat), 25]) = 55 / 2 ∧
    jsMean [(1 : Rat), 2] = 3 / 2 ∧
    round4 (jsMean [(1 : Rat), 2]) = 3 / 2 := by
  refine ⟨?_, by decide, by decide, by decide, by decide⟩
  have h := mean_fill_rounds exC8 5 1 [30, 25] (by decide) (by decide) (by decide)
  exact ⟨h.1, h.2 1 [Field.str "Bob", Field.str ""] rfl rfl⟩

/-! ### Claim C4: the mode fill value and its tie-break -/

theorem countVal_cons {α : Type} [DecidableEq α] (a v : α) (vs : List α) :
    countVal a (v :: vs) = countVal a vs + (if v = a then 1 else 0) := by
  by_cases h : v = a <;> simp [countVal, List.filter_cons, h]

theorem modeScan_mem {α : Type} [DecidableEq α] :
    ∀ (l : List α) (freq : α → Nat) (mx : Nat) (md : α),
      modeScan freq mx md l ∈ md :: l := by
  intro l
  induction l with
  | nil => intro freq mx md; exact List.mem_cons_self _ _
  | cons v vs ih =>
    intro freq mx md
    simp only [modeScan]
    split
    · rcases List.mem_cons.mp (ih _ _ v) with h | h
      · rw [h]; simp
      · simp [h]
    · rcases List.mem_cons.mp (ih _ mx md) with h | h
      · rw [h]; simp
      · simp [h]

theorem modeScan_count {α : Type} [DecidableEq α] :
    ∀ (rest : List α) (freq : α → Nat) (mx : Nat) (md : α),
      (∀ w, freq w ≤ mx) → freq md = mx →
      ∀ w, freq w + countVal w rest ≤
        freq (modeScan freq mx md rest) + countVal (modeScan freq mx md rest) rest := by
  intro rest
  induction rest with
  | nil =>
    intro freq mx md hle hmd w
    simpa [modeScan, countVal, hmd] using hle w
  | cons v vs ih =>
    intro freq mx md hle hmd w
    have hshift : ∀ u : α,
        freq u + countVal u (v :: vs)
          = (fun x => if x = v then freq v + 1 else freq x) u + countVal u vs := by
      intro u
      show freq u + countVal u (v :: vs)
        = (if u = v then freq v + 1 else freq u) + countVal u vs
      by_cases hu : u = v
      · subst hu
        rw [if_pos rfl, countVal_cons, if_pos rfl]
        omega
      · rw [if_neg hu, countVal_cons, if_neg (fun h : v = u => hu h.symm)]
        omega
    simp only [modeScan]
    split
    · next hlt =>
      have hres := ih (fun x => if x = v then freq v + 1 else freq x) (freq v + 1) v
        (by
          intro u
          show (if u = v then freq v + 1 else freq u) ≤ freq v + 1
          by_cases hu : u = v
          · rw [if_pos hu]
          · rw [if_neg hu]
            exact Nat.le_trans (hle u) (Nat.le_of_lt hlt))
        (by
          show (if v = v then freq v + 1 else freq v) = freq v + 1
          rw [if_pos rfl])
        w
      rw [hshift w]
      refine Nat.le_trans hres ?_
      rw [hshift _]
    · next hge =>
      have hmdv : md ≠ v := by
        intro hc
        rw [hc] at hmd
        exact hge (by omega)
      have hres := ih (fun x => if x = v then freq v + 1 else freq x) mx md
        (by
          intro u
          show (if u = v then freq v + 1 else freq u) ≤ mx
          by_cases hu : u = v
          · rw [if_pos hu]
            omega
          · rw [if_neg hu]
            exact hle u)
        (by
          show (if md = v then freq v + 1 else freq md) = mx
          rw [if_neg hmdv]
          exact hmd)
        w
      rw [hshift w]
      refine Nat.le_trans hres ?_
      rw [hshift _]

theorem jsMode_spec {α : Type} [DecidableEq α] (v0 : α) (vs : List α) :
    ∃ m, jsMode (v0 :: vs) = some m ∧ m ∈ v0 :: vs ∧
      ∀ w ∈ v0 :: vs, countVal w (v0 :: vs) ≤ countVal m (v0 :: vs) := by
  refine ⟨modeScan (fun _ => 0) 0 v0 (v0 :: vs), rfl, ?_, ?_⟩
  · rcases List.mem_cons.mp (modeScan_mem (v0 :: vs) (fun _ => 0) 0 v0) with h | h
    · rw [h]; exact List.mem_cons_self _ _
    · exact h
  · intro w _
    simpa using modeScan_count (v0 :: vs) (fun _ => 0) 0 v0
      (fun _ => Nat.le_refl 0) rfl w

theorem modeScanKey_mem {α : Type} (key : α → String) :
    ∀ (l : List α) (freq : String → Nat) (mx : Nat) (md : α),
      modeScanKey key freq mx md l ∈ md :: l := by
  intro l
  induction l with
  | nil => intro freq mx md; exact List.mem_cons_self _ _
  | cons v vs ih =>
    intro freq mx md
    simp only [modeScanKey]
    split
    · rcases List.mem_cons.mp (ih _ _ v) with h | h
      · rw [h]; simp
      · simp [h]
    · rcases List.mem_cons.mp (ih _ mx md) with h | h
      · rw [h]; simp
      · simp [h]

theorem modeScanKey_count {α : Type} (key : α → String) :
    ∀ (rest : List α) (freq : String → Nat) (mx : Nat) (md : α),
      (∀ k, freq k ≤ mx) → freq (key md) = mx →
      ∀ k, freq k + countVal k (rest.map key) ≤
        freq (key (modeScanKey key freq mx md rest))
          + countVal (key (modeScanKey key freq mx md rest)) (rest.map key) := by
  intro rest
  induction rest with
  | nil =>
    intro freq mx md hle hmd k
    simpa [modeScanKey, countVal, hmd] using hle k
  | cons v vs ih =>
    intro freq mx md hle hmd k
    have hshift : ∀ u : String,
        freq u + countVal u ((v :: vs).map key)
          = (fun x => if x = key v then freq (key v) + 1 else freq x) u
            + countVal u (vs.map key) := by
      intro u
      show freq u + countVal u (key v :: vs.map key)
        = (if u = key v then freq (key v) + 1 else freq u) + countVal u (vs.map key)
      by_cases hu : u = key v
      · subst hu
        rw [if_pos rfl, countVal_cons, if_pos rfl]
        omega
      · rw [if_neg hu, countVal_cons, if_neg (fun h : key v = u => hu h.symm)]
        omega
    simp only [modeScanKey]
    split
    · next hlt =>
      have hres := ih (fun x => if x = key v then freq (key v) + 1 else freq x)
        (freq (key v) + 1) v
        (by
          intro u
          show (if u = key v then freq (key v) + 1 else freq u) ≤ freq (key v) + 1
          by_cases hu : u = key v
          · rw [if_pos hu]
          · rw [if_neg hu]
            exact Nat.le_trans (hle u) (Nat.le_of_lt hlt))
        (by
          show (if key v = key v then freq (key v) + 1 else freq (key v))
            = freq (key v) + 1
          rw [if_pos rfl])
        k
      rw [hshift k]
      refine Nat.le_trans hres ?_
      rw [hshift _]
    · next hge =>
      have hmdv : key md ≠ key v := by
        intro hc
        rw [hc] at hmd
        exact hge (by omega)
      have hres := ih (fun x => if x = key v then freq (key v) + 1 else freq x) mx md
        (by
          intro u
          show (if u = key v then freq (key v) + 1 else freq u) ≤ mx
          by_cases hu : u = key v
          · rw [if_pos hu]
            omega
          · rw [if_neg hu]
            exact hle u)
        (by
          show (if key md = key v then freq (key v) + 1 else freq (key md)) = mx
          rw [if_neg hmdv]
          exact hmd)
        k
      rw [hshift k]
      refine Nat.le_trans hres ?_
      rw [hshift _]

theorem jsModeKey_spec {α : Type} (key : α → String) (v0 : α) (vs : List α) :
    ∃ m, jsModeKey key (v0 :: vs) = some m ∧ m ∈ v0 :: vs ∧
      ∀ u ∈ v0 :: vs,
        countVal (key u) ((v0 :: vs).map key)
          ≤ countVal (key m) ((v0 :: vs).map key) := by
  refine ⟨modeScanKey key (fun _ => 0) 0 v0 (v0 :: vs), rfl, ?_, ?_⟩
  · rcases List.mem_cons.mp (modeScanKey_mem key (v0 :: vs) (fun _ => 0) 0 v0) with h | h
    · rw [h]; exact List.mem_cons_self _ _
    · exact h
  · intro u _
    simpa using modeScanKey_count key (v0 :: vs) (fun _ => 0) 0 v0
      (fun _ => Nat.le_refl 0) rfl (key u)

theorem parseAll_some_length (f : Option Field → Option Rat) :
    ∀ (l : List (Option Field)) (bs : List Rat),
      parseAll f l = some bs → bs.length = l.length := by
  intro l
  induction l with
  | nil =>
    intro bs hbs
    simp only [parseAll, Option.some.injEq] at hbs
    rw [← hbs]
    rfl
  | cons v vs ih =>
    intro bs hbs
    rw [parseAll] at hbs
    rcases hfv : f v with _ | q <;> rw [hfv] at hbs
    · exact absurd hbs (by simp)
    · rcases hrest : parseAll f vs with _ | qs <;> rw [hrest] at hbs
      · exact absurd hbs (by simp)
      · simp only [Option.some.injEq] at hbs
        rw [← hbs]
        simp [ih qs hrest]

/-- Claim C4, amended: for strategies mode and knn the fill value is a
collected value whose JS string key attains the maximum frequency among
the collected values' keys — the frequency object coerces `frequency[val]`
property keys to strings, so a collected `undefined` (from a short row)
and the literal string "undefined" share one merged counter, and on the
parse-reachable column undefined, "undefined", "y", "y" the program fills
"undefined" even though that value's own frequency is 1 (see the last
conjuncts); for a numeric column the keys are the numbers' distinct
decimal strings, so the picked parsed number does attain the maximum
frequency.  On ties the scan promotes the value whose (merged) running
count reaches the maximum first, not the first-encountered tied value.
On the value list a, b, a, c the fill value is still "a". -/
theorem mode_fill_most_frequent (m : Method) (values : List (Option Field))
    (hm : m = Method.mode ∨ m = Method.knn) (hne : values ≠ []) :
    (parseAll parseFloatOpt values = none →
      ∃ w, jsModeKey jsKey values = some w ∧ computeFill m values = w ∧
        w ∈ values ∧
        ∀ u ∈ values,
          countVal (jsKey u) (values.map jsKey)
            ≤ countVal (jsKey w) (values.map jsKey)) ∧
    (∀ nums, parseAll parseFloatOpt values = some nums →
      ∃ q, jsMode nums = some q ∧ computeFill m values = some (Field.num q) ∧
        q ∈ nums ∧ ∀ u ∈ nums, countVal u nums ≤ countVal q nums) ∧
    computeFill Method.mode
        [some (Field.str "a"), some (Field.str "b"),
         some (Field.str "a"), some (Field.str "c")]
      = some (Field.str "a") ∧
    parseCSV "A,B\na\nb,undefined\nc,y\nd,y\ne," = some exC4b ∧
    collectValues exC4b 1
      = [none, some (Field.str "undefined"),
         some (Field.str "y"), some (Field.str "y")] ∧
    (processData Method.mode 5 exC4b).rows.get? 4
      = some [Field.str "e", Field.str "undefined"] ∧
    countVal (some (Field.str "undefined")) (collectValues exC4b 1) = 1 ∧
    countVal (some (Field.str "y")) (collectValues exC4b 1) = 2 := by
  have hlen : ¬values.length = 0 := fun hc => hne (List.length_eq_zero.mp hc)
  refine ⟨?_, ?_, by decide, by decide, by decide, by decide, by decide, by decide⟩
  · intro hnone
    rcases values with _ | ⟨v0, vs⟩
    · exact absurd rfl hne
    · obtain ⟨w, hw, hwmem, hwcount⟩ := jsModeKey_spec jsKey v0 vs
      refine ⟨w, hw, ?_, hwmem, hwcount⟩
      rw [computeFill, if_neg hlen, hnone]
      rcases hm with rfl | rfl <;> simp [textFill, hw]
  · intro nums hnums
    rcases hns : nums with _ | ⟨q0, qs⟩
    · exfalso
      have := parseAll_some_length parseFloatOpt values nums hnums
      rw [hns] at this
      exact hlen this.symm
    · subst hns
      obtain ⟨q, hq, hqmem, hqcount⟩ := jsMode_spec q0 qs
      refine ⟨q, hq, ?_, hqmem, hqcount⟩
      rw [computeFill, if_neg hlen, hnums]
      rcases hm with rfl | rfl <;> simp [numericFill, hq]

/-- Claim C4, counterexample: on collected values b, a, a, b (in encounter
order — see the first conjunct) the frequencies of "a" and "b" tie at the
maximum 2 and "b" is the first value in encounter order attaining that
maximum, yet cleaning with mode fills the missing cell with "a" — the scan
promotes the value whose count reaches the maximum first, and a's second
occurrence precedes b's. -/
theorem mode_tiebreak_cex :
    collectValues exC4 0
      = [some (Field.str "b"), some (Field.str "a"),
         some (Field.str "a"), some (Field.str "b")] ∧
    countVal (some (Field.str "b")) (collectValues exC4 0) = 2 ∧
    countVal (some (Field.str "a")) (collectValues exC4 0) = 2 ∧
    (∀ u ∈ collectValues exC4 0, countVal u (collectValues exC4 0) ≤ 2) ∧
    (collectValues exC4 0).head? = some (some (Field.str "b")) ∧
    (processData Method.mode 5 exC4).rows.get? 4 = some [Field.str "a"] ∧
    Field.str "a" ≠ Field.str "b" := by decide

/-- Witness for the amended claim C4 at the collision column
undefined, "undefined", "y", "y": the computed fill value's merged string
key attains the maximum key frequency. -/
theorem mode_fill_most_frequent_witness :
    ∃ w, jsModeKey jsKey [none, some (Field.str "undefined"),
          some (Field.str "y"), some (Field.str "y")] = some w ∧
        computeFill Method.mode [none, some (Field.str "undefined"),
          some (Field.str "y"), some (Field.str "y")] = w ∧
        w ∈ [none, some (Field.str "undefined"),
          some (Field.str "y"), some (Field.str "y")] ∧
        ∀ u ∈ ([none, some (Field.str "undefined"),
          some (Field.str "y"), some (Field.str "y")] : List (Option Field)),
          countVal (jsKey u) ([none, some (Field.str "undefined"),
            some (Field.str "y"), some (Field.str "y")].map jsKey)
          ≤ countVal (jsKey w) ([none, some (Field.str "undefined"),
            some (Field.str "y"), some (Field.str "y")].map jsKey) :=
  (mode_fill_most_frequent Method.mode [none, some (Field.str "undefined"),
      some (Field.str "y"), some (Field.str "y")]
    (Or.inl rfl) (by decide)).1 (by decide)


/-! ### Claim C9: clean never mutates its input -/

theorem heapWrite_get?_ne (h : RowHeap) (a' i : Nat) (v : Field) (a : Nat)
    (hne : a' ≠ a) :
    (heapWrite h a' i v).cells.get? a = h.cells.get? a :=
  List.get?_set_ne _ _ hne

theorem foldCols_preserves (fill : Nat → Option Field) (a' a : Nat) (hne : a' ≠ a) :
    ∀ (cols : List Nat) (h : RowHeap),
      ((cols.foldl
        (fun h i =>
          if (heapRead h a').get? i = some (Field.str "") then
            match fill i with
            | some f => heapWrite h a' i (roundFill f)
            | none => h
          else h)
        h).cells.get? a)
      = h.cells.get? a := by
  intro cols
  induction cols with
  | nil => intro h; rfl
  | cons i is ih =>
    intro h
    simp only [List.foldl_cons]
    rw [ih]
    by_cases hc : (heapRead h a').get? i = some (Field.str "")
    · rw [if_pos hc]
      cases hf : fill i with
      | none => rfl
      | some f => exact heapWrite_get?_ne h a' i (roundFill f) a hne
    · rw [if_neg hc]

theorem foldRows_preserves (fill : Nat → Option Field) (cols : List Nat) (a : Nat) :
    ∀ (addrs : List Nat), (∀ x ∈ addrs, x ≠ a) →
    ∀ h : RowHeap,
      ((addrs.foldl
        (fun h a' =>
          cols.foldl
            (fun h i =>
              if (heapRead h a').get? i = some (Field.str "") then
                match fill i with
                | some f => heapWrite h a' i (roundFill f)
                | none => h
              else h)
            h)
        h).cells.get? a)
      = h.cells.get? a := by
  intro addrs
  induction addrs with
  | nil => intro _ h; rfl
  | cons a' rest ih =>
    intro hall h
    simp only [List.foldl_cons]
    rw [ih (fun x hx => hall x (List.mem_cons_of_mem a' hx))]
    exact foldCols_preserves fill a' a (hall a' (List.mem_cons_self a' rest)) cols h

/-- Claim C9: clean operates on a deep copy and never mutates its input —
in the store-level model, every address that existed before the call (in
particular every row of the original dataset) holds exactly the same row
array afterwards, for every strategy; the copies are allocated at fresh
addresses and all writes go to those.  The original reference's headers,
totalRows and missingValues are plain values in both models and are copied
(`[...]`, `{...}`) rather than shared, so they cannot change. -/
theorem clean_preserves_original (m : Method) (k : Nat) (h0 : RowHeap)
    (ds : DatasetRef) (a : Nat) (ha : a < h0.cells.length) :
    (processDataHeap m k h0 ds).1.cells.get? a = h0.cells.get? a := by
  have happend : ∀ rs : List (List Field), (h0.cells ++ rs).get? a = h0.cells.get? a :=
    fun rs => List.get?_append ha
  have haddr : ∀ x ∈ (List.range (ds.rowAddrs.map (heapRead h0)).length).map
      (fun i => i + h0.cells.length), x ≠ a := by
    intro x hx
    obtain ⟨i, _, hxi⟩ := List.mem_map.mp hx
    omega
  cases m
  case drop => exact happend _
  all_goals
    simp only [processDataHeap]
    exact (foldRows_preserves _ _ a _ haddr _).trans (happend _)

/-! #### Agreement of the store-level and pure models

The store-level `processDataHeap` computes, through the heap, exactly the
pure `processData` of the dataset its input reference denotes — so the
frame theorem above is about the same computation the other claims are. -/

theorem heapRead_heapWrite_self (h : RowHeap) (a i : Nat) (v : Field) :
    heapRead (heapWrite h a i v) a = (heapRead h a).set i v := by
  unfold heapWrite heapRead
  by_cases hlt : a < h.cells.length
  · show ((h.cells.set a (((h.cells.get? a).getD []).set i v)).get? a).getD [] = _
    rw [List.get?_eq_getElem?, List.getElem?_set_eq_of_lt _ hlt]
    rfl
  · have hle : h.cells.length ≤ a := Nat.le_of_not_lt hlt
    show ((h.cells.set a (((h.cells.get? a).getD []).set i v)).get? a).getD [] = _
    rw [List.set_eq_of_length_le hle, List.get?_eq_getElem?,
      List.getElem?_eq_none hle]
    rfl

theorem heapRead_heapWrite_ne (h : RowHeap) (a i : Nat) (v : Field) (b : Nat)
    (hne : a ≠ b) : heapRead (heapWrite h a i v) b = heapRead h b := by
  unfold heapWrite heapRead
  rw [List.get?_set_ne _ _ hne]

theorem heapRead_alloc (h0 : RowHeap) (rs : List (List Field)) :
    ((List.range rs.length).map (fun i => i + h0.cells.length)).map
      (heapRead ⟨h0.cells ++ rs⟩) = rs := by
  apply List.ext_getElem?
  intro j
  rw [List.getElem?_map, List.getElem?_map]
  by_cases hj : j < rs.length
  · rw [List.getElem?_range hj]
    have hread : heapRead ⟨h0.cells ++ rs⟩ (j + h0.cells.length) = rs[j] := by
      unfold heapRead
      rw [show (RowHeap.mk (h0.cells ++ rs)).cells = h0.cells ++ rs from rfl,
        List.get?_append_right (by omega)]
      have : j + h0.cells.length - h0.cells.length = j := by omega
      rw [this, List.get?_eq_getElem?, List.getElem?_eq_getElem hj]
      rfl
    rw [List.getElem?_eq_getElem hj]
    simp [hread]
  · rw [List.getElem?_eq_none (by simpa using Nat.le_of_not_lt hj),
      List.getElem?_eq_none (Nat.le_of_not_lt hj)]
    rfl

theorem filter_comp_map {α β : Type} (f : α → β) (p : β → Bool) :
    ∀ l : List α, (l.filter (fun a => p (f a))).map f = (l.map f).filter p := by
  intro l
  induction l with
  | nil => rfl
  | cons a t ih =>
    simp only [List.filter_cons, List.map_cons]
    by_cases hp : p (f a) = true
    · rw [if_pos hp, if_pos hp, List.map_cons, ih]
    · rw [if_neg hp, if_neg hp, ih]

theorem alloc_addrs_nodup (n len : Nat) :
    (((List.range n).map (fun i => i + len)) : List Nat).Nodup :=
  (List.nodup_range n).map (fun a b hab => by omega)

theorem pureStep_get?_ne (fill : Nat → Option Field) (r : List Field) (i j : Nat)
    (hne : i ≠ j) :
    ((if r.get? i = some (Field.str "") then
        match fill i with
        | some f => r.set i (roundFill f)
        | none => r
      else r).get? j) = r.get? j := by
  by_cases hc : r.get? i = some (Field.str "")
  · rw [if_pos hc]
    cases hf : fill i with
    | none => rfl
    | some f => exact List.get?_set_ne _ _ hne
  · rw [if_neg hc]

theorem pureStep_get?_self (fill : Nat → Option Field) (r : List Field) (i : Nat) :
    ((if r.get? i = some (Field.str "") then
        match fill i with
        | some f => r.set i (roundFill f)
        | none => r
      else r).get? i)
    = (r.get? i).map (fun v =>
        if v = Field.str "" then
          match fill i with
          | some f => roundFill f
          | none => v
        else v) := by
  by_cases hc : r.get? i = some (Field.str "")
  · rw [if_pos hc]
    have hlt : i < r.length := by
      rw [List.get?_eq_getElem?] at hc
      exact (List.getElem?_eq_some_iff.mp hc).1
    cases hf : fill i with
    | none =>
      rw [hc]
      rfl
    | some f =>
      rw [List.get?_eq_getElem?, List.getElem?_set_eq_of_lt _ hlt, hc]
      rfl
  · rw [if_neg hc]
    cases hr : r.get? i with
    | none => rfl
    | some v =>
      have hv : v ≠ Field.str "" := fun hcv => hc (by rw [hr, hcv])
      rw [Option.map_some']
      rw [if_neg hv]

theorem pureFold_get?_not_mem (fill : Nat → Option Field) :
    ∀ (js : List Nat) (r : List Field) (j : Nat), j ∉ js →
      ((js.foldl (fun r i =>
          if r.get? i = some (Field.str "") then
            match fill i with
            | some f => r.set i (roundFill f)
            | none => r
          else r) r).get? j) = r.get? j := by
  intro js
  induction js with
  | nil => intro r j _; rfl
  | cons i is ih =>
    intro r j hj
    simp only [List.foldl_cons]
    rw [ih _ j (fun h => hj (List.mem_cons_of_mem i h)),
      pureStep_get?_ne fill r i j (fun h => hj (h ▸ List.mem_cons_self i is))]

theorem pureFold_get?_mem (fill : Nat → Option Field) :
    ∀ (js : List Nat), js.Nodup → ∀ (r : List Field) (j : Nat), j ∈ js →
      ((js.foldl (fun r i =>
          if r.get? i = some (Field.str "") then
            match fill i with
            | some f => r.set i (roundFill f)
            | none => r
          else r) r).get? j)
      = (r.get? j).map (fun v =>
          if v = Field.str "" then
            match fill j with
            | some f => roundFill f
            | none => v
          else v) := by
  intro js
  induction js with
  | nil => intro _ r j hj; exact absurd hj (List.not_mem_nil j)
  | cons i is ih =>
    intro hnd r j hj
    have hnd' := List.nodup_cons.mp hnd
    simp only [List.foldl_cons]
    rcases List.mem_cons.mp hj with rfl | hjs
    · rw [pureFold_get?_not_mem fill is _ j hnd'.1]
      exact pureStep_get?_self fill r j
    · rw [ih hnd'.2 _ j hjs,
        pureStep_get?_ne fill r i j (fun h => hnd'.1 (h ▸ hjs))]

theorem pureFold_eq_applyFill (headers : List String) (fill : Nat → Option Field)
    (r : List Field) :
    (List.range headers.length).foldl (fun r i =>
        if r.get? i = some (Field.str "") then
          match fill i with
          | some f => r.set i (roundFill f)
          | none => r
        else r) r
      = applyFill headers fill r := by
  apply List.ext_getElem?
  intro j
  rw [← List.get?_eq_getElem?, ← List.get?_eq_getElem?]
  have happly : (applyFill headers fill r).get? j
      = (r.get? j).map (applyCell headers fill j) := by
    show (applyRow headers fill 0 r).get? j = _
    rw [applyRow_get?]
    have : 0 + j = j := by omega
    rw [this]
  rw [happly]
  by_cases hj : j < headers.length
  · rw [pureFold_get?_mem fill _ (List.nodup_range _) r j (List.mem_range.mpr hj)]
    cases hr : r.get? j with
    | none => rfl
    | some v =>
      rw [Option.map_some', Option.map_some']
      show _ = some (applyCell headers fill j v)
      unfold applyCell
      rw [if_pos hj]
  · rw [pureFold_get?_not_mem fill _ r j (fun h => hj (List.mem_range.mp h))]
    cases hr : r.get? j with
    | none => rfl
    | some v =>
      rw [Option.map_some']
      show some v = some (applyCell headers fill j v)
      unfold applyCell
      rw [if_neg hj]

theorem foldCols_read_self (fill : Nat → Option Field) (a : Nat) :
    ∀ (cols : List Nat) (h : RowHeap),
      heapRead (cols.foldl (fun h i =>
          if (heapRead h a).get? i = some (Field.str "") then
            match fill i with
            | some f => heapWrite h a i (roundFill f)
            | none => h
          else h) h) a
      = cols.foldl (fun r i =>
          if r.get? i = some (Field.str "") then
            match fill i with
            | some f => r.set i (roundFill f)
            | none => r
          else r) (heapRead h a) := by
  intro cols
  induction cols with
  | nil => intro h; rfl
  | cons i is ih =>
    intro h
    simp only [List.foldl_cons]
    rw [ih]
    congr 1
    by_cases hc : (heapRead h a).get? i = some (Field.str "")
    · rw [if_pos hc, if_pos hc]
      cases hf : fill i with
      | none => rfl
      | some f => exact heapRead_heapWrite_self h a i (roundFill f)
    · rw [if_neg hc, if_neg hc]

theorem foldCols_read_ne (fill : Nat → Option Field) (a' b : Nat) (hne : a' ≠ b)
    (cols : List Nat) (h : RowHeap) :
    heapRead (cols.foldl (fun h i =>
        if (heapRead h a').get? i = some (Field.str "") then
          match fill i with
          | some f => heapWrite h a' i (roundFill f)
          | none => h
        else h) h) b
      = heapRead h b :=
  congrArg (fun o : Option (List Field) => o.getD [])
    (foldCols_preserves fill a' b hne cols h)

theorem foldRows_read (fill : Nat → Option Field) (cols : List Nat) :
    ∀ (addrs : List Nat), addrs.Nodup →
    ∀ h : RowHeap,
      addrs.map (heapRead (addrs.foldl (fun h a =>
          cols.foldl (fun h i =>
            if (heapRead h a).get? i = some (Field.str "") then
              match fill i with
              | some f => heapWrite h a i (roundFill f)
              | none => h
            else h) h) h))
      = (addrs.map (heapRead h)).map (fun r =>
          cols.foldl (fun r i =>
            if r.get? i = some (Field.str "") then
              match fill i with
              | some f => r.set i (roundFill f)
              | none => r
            else r) r) := by
  intro addrs
  induction addrs with
  | nil => intro _ h; rfl
  | cons a rest ih =>
    intro hnd h
    have hnd' := List.nodup_cons.mp hnd
    simp only [List.foldl_cons, List.map_cons]
    refine congrArg₂ _ ?_ ?_
    · have hpres := congrArg (fun o : Option (List Field) => o.getD [])
        (foldRows_preserves fill cols a rest
          (fun x hx hxa => hnd'.1 (hxa ▸ hx))
          (cols.foldl (fun h i =>
            if (heapRead h a).get? i = some (Field.str "") then
              match fill i with
              | some f => heapWrite h a i (roundFill f)
              | none => h
            else h) h))
      exact hpres.trans (foldCols_read_self fill a cols h)
    · rw [ih hnd'.2]
      have hrest : rest.map (heapRead (cols.foldl (fun h i =>
          if (heapRead h a).get? i = some (Field.str "") then
            match fill i with
            | some f => heapWrite h a i (roundFill f)
            | none => h
          else h) h))
          = rest.map (heapRead h) :=
        List.map_congr_left (fun b hb =>
          foldCols_read_ne fill a b (fun hab => hnd'.1 (hab ▸ hb)) cols h)
      rw [hrest]

theorem drop_filter_map (h : RowHeap) (addrs : List Nat) :
    (addrs.filter
        (fun a => !((heapRead h a).any (fun cell => cell == Field.str "")))).map
      (heapRead h)
      = (addrs.map (heapRead h)).filter
          (fun row => !(row.any (fun cell => cell == Field.str ""))) :=
  filter_comp_map (heapRead h)
    (fun row => !(row.any (fun cell => cell == Field.str ""))) addrs

/-- The store-level clean computes exactly the pure `processData` of the
dataset its input reference denotes: reading the cleaned rows back from the
final heap yields the pure model's cleaned dataset, for every strategy. -/
theorem processDataHeap_agrees (m : Method) (k : Nat) (h0 : RowHeap)
    (ds : DatasetRef) :
    derefDataset (processDataHeap m k h0 ds).1 (processDataHeap m k h0 ds).2
      = processData m k (derefDataset h0 ds) := by
  have hread := heapRead_alloc h0 (ds.rowAddrs.map (heapRead h0))
  cases m
  case drop =>
    simp only [processDataHeap, allocRows, derefDataset, processData]
    have hrows : ((((List.range (ds.rowAddrs.map (heapRead h0)).length).map
          (fun i => i + h0.cells.length)).filter
            (fun a => !((heapRead ⟨h0.cells ++ ds.rowAddrs.map (heapRead h0)⟩ a).any
              (fun cell => cell == Field.str "")))).map
          (heapRead ⟨h0.cells ++ ds.rowAddrs.map (heapRead h0)⟩))
        = (ds.rowAddrs.map (heapRead h0)).filter
            (fun row => !(row.any (fun cell => cell == Field.str ""))) := by
      rw [drop_filter_map, hread]
    have hlen := congrArg List.length hrows
    rw [List.length_map] at hlen
    rw [hrows, hlen]
  all_goals
    simp only [processDataHeap, allocRows, derefDataset, processData]
    rw [foldRows_read _ (List.range ds.headers.length) _
        (alloc_addrs_nodup _ _) _,
      hread,
      List.map_congr_left (fun r _ => pureFold_eq_applyFill ds.headers _ r)]

/-- Witness for claim C9: on a concrete two-row heap, cleaning with mean
leaves both original row arrays untouched. -/
theorem clean_preserves_original_witness :
    (processDataHeap Method.mean 5 exC9Heap exC9).1.cells.get? 0
        = exC9Heap.cells.get? 0 ∧
    (processDataHeap Method.mean 5 exC9Heap exC9).1.cells.get? 1
        = exC9Heap.cells.get? 1 :=
  ⟨clean_preserves_original Method.mean 5 exC9Heap exC9 0 (by decide),
   clean_preserves_original Method.mean 5 exC9Heap exC9 1 (by decide)⟩

/-! ### Claim C6: parse-then-serialize is idempotent on quote-free content

The development works on character lists: first the `trim` facts, then the
behavior of `split('\n')` on serialized content, then the line parser on
joined fields, and finally the round-trip for `parseCSV` itself. -/

theorem dropWhile_shape (p : Char → Bool) :
    ∀ l : List Char, l.dropWhile p = [] ∨
      ∃ a t, l.dropWhile p = a :: t ∧ p a = false := by
  intro l
  induction l with
  | nil => exact Or.inl rfl
  | cons c cs ih =>
    rw [List.dropWhile_cons]
    by_cases hc : p c = true
    · rw [if_pos hc]; exact ih
    · rw [if_neg hc]
      exact Or.inr ⟨c, cs, rfl, by simpa using hc⟩

theorem dropWhile_head_false (p : Char → Bool) (l : List Char) :
    ∀ x ∈ (l.dropWhile p).head?, p x = false := by
  intro x hx
  rcases dropWhile_shape p l with h | ⟨a, t, h, ha⟩
  · rw [h] at hx; exact absurd hx (by simp)
  · rw [h] at hx
    simp only [List.head?_cons, Option.mem_def, Option.some.injEq] at hx
    rw [← hx]; exact ha

theorem dropWhile_eq_self_of_head (p : Char → Bool) (l : List Char)
    (h : ∀ x ∈ l.head?, p x = false) : l.dropWhile p = l := by
  cases l with
  | nil => rfl
  | cons c cs =>
    rw [List.dropWhile_cons, if_neg (by simp [h c (by simp)])]

theorem dropWhile_getLast? (p : Char → Bool) :
    ∀ l : List Char, l.dropWhile p ≠ [] → (l.dropWhile p).getLast? = l.getLast? := by
  intro l
  induction l with
  | nil => intro h; exact absurd rfl h
  | cons c cs ih =>
    intro h
    rw [List.dropWhile_cons] at h ⊢
    by_cases hc : p c = true
    · rw [if_pos hc] at h ⊢
      rw [ih h]
      have hcs : cs ≠ [] := by
        intro hnil
        rw [hnil] at h
        exact h rfl
      rw [List.getLast?_cons, List.getLast?_eq_getLast _ hcs]
      simp [List.getLastD_eq_getLast?, List.getLast?_eq_getLast _ hcs]
    · rw [if_neg hc]

theorem jsTrim_head_false (l : List Char) :
    ∀ x ∈ (jsTrim l).head?, isJsSpace x = false := by
  intro x hx
  unfold jsTrim at hx
  rw [List.head?_reverse] at hx
  by_cases hnil : ((l.dropWhile isJsSpace).reverse.dropWhile isJsSpace) = []
  · rw [hnil] at hx
    exact absurd hx (by simp)
  · rw [dropWhile_getLast? _ _ hnil, List.getLast?_reverse] at hx
    exact dropWhile_head_false isJsSpace l x hx

theorem jsTrim_getLast_false (l : List Char) :
    ∀ x ∈ (jsTrim l).getLast?, isJsSpace x = false := by
  intro x hx
  unfold jsTrim at hx
  rw [List.getLast?_reverse] at hx
  exact dropWhile_head_false isJsSpace _ x hx

theorem jsTrim_eq_self (l : List Char)
    (hh : ∀ x ∈ l.head?, isJsSpace x = false)
    (hl : ∀ x ∈ l.getLast?, isJsSpace x = false) : jsTrim l = l := by
  unfold jsTrim
  rw [dropWhile_eq_self_of_head _ _ hh]
  rw [dropWhile_eq_self_of_head _ _ (by rw [List.head?_reverse]; exact hl)]
  exact List.reverse_reverse l

theorem jsTrim_idem (l : List Char) : jsTrim (jsTrim l) = jsTrim l :=
  jsTrim_eq_self _ (jsTrim_head_false l) (jsTrim_getLast_false l)

theorem jsTrim_sublist (l : List Char) : (jsTrim l).Sublist l := by
  unfold jsTrim
  have h1 : (l.dropWhile isJsSpace).Sublist l := List.dropWhile_sublist _
  have h2 : ((l.dropWhile isJsSpace).reverse.dropWhile isJsSpace).Sublist
      (l.dropWhile isJsSpace).reverse := List.dropWhile_sublist _
  have h3 := h2.reverse
  rw [List.reverse_reverse] at h3
  exact h3.trans h1

theorem mem_dropWhile_of_mem (p : Char → Bool) :
    ∀ (l : List Char) (c : Char), c ∈ l → p c = false → c ∈ l.dropWhile p := by
  intro l
  induction l with
  | nil => intro c hc; exact absurd hc (List.not_mem_nil c)
  | cons a t ih =>
    intro c hc hpc
    rw [List.dropWhile_cons]
    by_cases ha : p a = true
    · rw [if_pos ha]
      rcases List.mem_cons.mp hc with rfl | hct
      · rw [hpc] at ha; exact absurd ha (by simp)
      · exact ih c hct hpc
    · rw [if_neg ha]
      exact hc

theorem jsTrim_ne_nil_of_mem (l : List Char) (c : Char) (hc : c ∈ l)
    (hpc : isJsSpace c = false) : jsTrim l ≠ [] := by
  unfold jsTrim
  intro hnil
  have h1 : c ∈ l.dropWhile isJsSpace := mem_dropWhile_of_mem _ l c hc hpc
  have h2 : c ∈ (l.dropWhile isJsSpace).reverse := List.mem_reverse.mpr h1
  have h3 : c ∈ (l.dropWhile isJsSpace).reverse.dropWhile isJsSpace :=
    mem_dropWhile_of_mem _ _ c h2 hpc
  rw [← List.mem_reverse] at h3
  rw [hnil] at h3
  exact List.not_mem_nil c h3

/-! #### `split('\n')` on serialized content -/

theorem splitNl_cons_newline (rest : List Char) :
    splitNl ('\n' :: rest) = [] :: splitNl rest := by
  rw [splitNl, if_pos rfl]

theorem splitNl_ne_nil : ∀ s : List Char, splitNl s ≠ [] := by
  intro s
  induction s with
  | nil => simp [splitNl]
  | cons c cs ih =>
    rw [splitNl]
    by_cases hc : c = '\n'
    · rw [if_pos hc]; simp
    · rw [if_neg hc]
      rcases hsp : splitNl cs with _ | ⟨t, ts⟩
      · simp
      · simp

theorem splitNl_append_line (l : List Char) (hnl : '\n' ∉ l) (rest : List Char) :
    splitNl (l ++ '\n' :: rest) = l :: splitNl rest := by
  induction l with
  | nil => exact splitNl_cons_newline rest
  | cons c cs ih =>
    have hc : c ≠ '\n' := fun hc => hnl (hc ▸ List.mem_cons_self c cs)
    have hcs : '\n' ∉ cs := fun h => hnl (List.mem_cons_of_mem c h)
    show splitNl (c :: (cs ++ '\n' :: rest)) = (c :: cs) :: splitNl rest
    rw [splitNl, if_neg hc, ih hcs]

theorem splitNl_flatten_lines :
    ∀ ls : List (List Char), (∀ l ∈ ls, '\n' ∉ l) →
      splitNl ((ls.map (fun l => l ++ ['\n'])).flatten) = ls ++ [[]] := by
  intro ls
  induction ls with
  | nil => intro _; rfl
  | cons l t ih =>
    intro hall
    simp only [List.map_cons, List.flatten_cons]
    rw [List.append_assoc]
    show splitNl (l ++ '\n' :: (t.map (fun l => l ++ ['\n'])).flatten) = _
    rw [splitNl_append_line l (hall l (List.mem_cons_self l t)),
      ih (fun x hx => hall x (List.mem_cons_of_mem l hx))]
    rfl

theorem splitNl_mem_chars :
    ∀ (s : List Char) (l : List Char), l ∈ splitNl s → ∀ c ∈ l, c ∈ s := by
  intro s
  induction s with
  | nil =>
    intro l hl c hc
    simp only [splitNl, List.mem_singleton] at hl
    rw [hl] at hc
    exact absurd hc (List.not_mem_nil c)
  | cons a cs ih =>
    intro l hl c hc
    rw [splitNl] at hl
    by_cases ha : a = '\n'
    · rw [if_pos ha] at hl
      rcases List.mem_cons.mp hl with rfl | hl'
      · exact absurd hc (List.not_mem_nil c)
      · exact List.mem_cons_of_mem a (ih l hl' c hc)
    · rw [if_neg ha] at hl
      rcases hsp : splitNl cs with _ | ⟨t, ts⟩
      · rw [hsp] at hl
        simp only [List.mem_singleton] at hl
        rw [hl] at hc
        rcases List.mem_cons.mp hc with rfl | hc'
        · exact List.mem_cons_self c cs
        · exact absurd hc' (List.not_mem_nil c)
      · rw [hsp] at hl
        rcases List.mem_cons.mp hl with rfl | hl'
        · rcases List.mem_cons.mp hc with rfl | hc'
          · exact List.mem_cons_self c cs
          · exact List.mem_cons_of_mem a
              (ih t (hsp ▸ List.mem_cons_self t ts) c hc')
        · exact List.mem_cons_of_mem a
            (ih l (hsp ▸ List.mem_cons_of_mem t hl') c hc)

theorem splitNl_no_newline :
    ∀ (s : List Char) (l : List Char), l ∈ splitNl s → '\n' ∉ l := by
  intro s
  induction s with
  | nil =>
    intro l hl
    simp only [splitNl, List.mem_singleton] at hl
    rw [hl]
    exact List.not_mem_nil _
  | cons a cs ih =>
    intro l hl
    rw [splitNl] at hl
    by_cases ha : a = '\n'
    · rw [if_pos ha] at hl
      rcases List.mem_cons.mp hl with rfl | hl'
      · exact List.not_mem_nil _
      · exact ih l hl'
    · rw [if_neg ha] at hl
      rcases hsp : splitNl cs with _ | ⟨t, ts⟩
      · rw [hsp] at hl
        simp only [List.mem_singleton] at hl
        rw [hl]
        intro hc
        rcases List.mem_cons.mp hc with h | h
        · exact ha h.symm
        · exact List.not_mem_nil _ h
      · rw [hsp] at hl
        rcases List.mem_cons.mp hl with rfl | hl'
        · intro hc
          rcases List.mem_cons.mp hc with h | h
          · exact ha h.symm
          · exact ih t (hsp ▸ List.mem_cons_self t ts) h
        · exact ih l (hsp ▸ List.mem_cons_of_mem t hl')

/-! #### The line parser on quote-free input -/

theorem aux_ne_nil : ∀ (inQ : Bool) (l : List Char), parseCSVLineAux inQ l ≠ [] := by
  intro inQ l
  induction l generalizing inQ with
  | nil => simp [parseCSVLineAux]
  | cons c cs ih =>
    rw [parseCSVLineAux]
    by_cases hq : c = '"'
    · rw [if_pos hq]; exact ih (!inQ)
    · rw [if_neg hq]
      by_cases hc : c = ',' ∧ inQ = false
      · rw [if_pos hc]; simp
      · rw [if_neg hc]
        rcases hsp : parseCSVLineAux inQ cs with _ | ⟨f, fs⟩
        · simp
        · simp

theorem aux_single_of_plain :
    ∀ l : List Char, '"' ∉ l → ',' ∉ l → parseCSVLineAux false l = [l] := by
  intro l
  induction l with
  | nil => intro _ _; rfl
  | cons c cs ih =>
    intro hq hc
    have hcq : c ≠ '"' := fun h => hq (h ▸ List.mem_cons_self c cs)
    have hcc : ¬(c = ',' ∧ (false : Bool) = false) :=
      fun h => hc (h.1 ▸ List.mem_cons_self c cs)
    rw [parseCSVLineAux, if_neg hcq, if_neg hcc,
      ih (fun h => hq (List.mem_cons_of_mem c h)) (fun h => hc (List.mem_cons_of_mem c h))]

theorem aux_append_plain :
    ∀ (f : List Char), '"' ∉ f → ',' ∉ f →
      ∀ (rest : List Char) (g : List Char) (gs : List (List Char)),
        parseCSVLineAux false rest = g :: gs →
        parseCSVLineAux false (f ++ rest) = (f ++ g) :: gs := by
  intro f
  induction f with
  | nil => intro _ _ rest g gs h; simpa using h
  | cons c cs ih =>
    intro hq hc rest g gs h
    have hcq : c ≠ '"' := fun hx => hq (hx ▸ List.mem_cons_self c cs)
    have hcc : ¬(c = ',' ∧ (false : Bool) = false) :=
      fun hx => hc (hx.1 ▸ List.mem_cons_self c cs)
    show parseCSVLineAux false (c :: (cs ++ rest)) = _
    rw [parseCSVLineAux, if_neg hcq, if_neg hcc,
      ih (fun h' => hq (List.mem_cons_of_mem c h'))
        (fun h' => hc (List.mem_cons_of_mem c h')) rest g gs h]
    rfl

theorem aux_joinSep :
    ∀ fs : List (List Char), fs ≠ [] → (∀ f ∈ fs, '"' ∉ f ∧ ',' ∉ f) →
      parseCSVLineAux false (joinSep [','] fs) = fs := by
  intro fs
  induction fs with
  | nil => intro h _; exact absurd rfl h
  | cons f t ih =>
    intro _ hall
    obtain ⟨hfq, hfc⟩ := hall f (List.mem_cons_self f t)
    cases t with
    | nil =>
      show parseCSVLineAux false f = [f]
      exact aux_single_of_plain f hfq hfc
    | cons f' t' =>
      have hjoin : joinSep [','] (f :: f' :: t')
          = f ++ ',' :: joinSep [','] (f' :: t') := by
        show f ++ [','] ++ joinSep [','] (f' :: t') = _
        rw [List.append_assoc]
        rfl
      rw [hjoin]
      have hrest : parseCSVLineAux false (',' :: joinSep [','] (f' :: t'))
          = [] :: parseCSVLineAux false (joinSep [','] (f' :: t')) := by
        rw [parseCSVLineAux, if_neg (by decide), if_pos ⟨rfl, rfl⟩]
      have hind := ih (by simp) (fun x hx => hall x (List.mem_cons_of_mem f hx))
      rcases hparse : parseCSVLineAux false (joinSep [','] (f' :: t')) with _ | ⟨g, gs⟩
      · exact absurd hparse (aux_ne_nil false _)
      · rw [hparse] at hrest hind
        rw [aux_append_plain f hfq hfc _ _ _ hrest]
        rw [← hind]
        simp

theorem aux_fields_plain :
    ∀ l : List Char, '"' ∉ l →
      ∀ f ∈ parseCSVLineAux false l, '"' ∉ f ∧ ',' ∉ f := by
  intro l
  induction l with
  | nil =>
    intro _ f hf
    simp only [parseCSVLineAux, List.mem_singleton] at hf
    rw [hf]
    exact ⟨List.not_mem_nil _, List.not_mem_nil _⟩
  | cons c cs ih =>
    intro hq f hf
    have hcq : c ≠ '"' := fun h => hq (h ▸ List.mem_cons_self c cs)
    have hcsq : '"' ∉ cs := fun h => hq (List.mem_cons_of_mem c h)
    rw [parseCSVLineAux, if_neg hcq] at hf
    by_cases hc : c = ',' ∧ (false : Bool) = false
    · rw [if_pos hc] at hf
      rcases List.mem_cons.mp hf with rfl | hf'
      · exact ⟨List.not_mem_nil _, List.not_mem_nil _⟩
      · exact ih hcsq f hf'
    · rw [if_neg hc] at hf
      rcases hsp : parseCSVLineAux false cs with _ | ⟨g, gs⟩
      · exact absurd hsp (aux_ne_nil false cs)
      · rw [hsp] at hf
        have hcc : c ≠ ',' := fun h => hc ⟨h, rfl⟩
        rcases List.mem_cons.mp hf with rfl | hf'
        · obtain ⟨hgq, hgc⟩ := ih hcsq g (hsp ▸ List.mem_cons_self g gs)
          constructor
          · intro hmem
            rcases List.mem_cons.mp hmem with h | h
            · exact hcq h.symm
            · exact hgq h
          · intro hmem
            rcases List.mem_cons.mp hmem with h | h
            · exact hcc h.symm
            · exact hgc h
        · exact ih hcsq f (hsp ▸ List.mem_cons_of_mem g hf')

theorem aux_mem_chars :
    ∀ (l : List Char) (inQ : Bool) (f : List Char),
      f ∈ parseCSVLineAux inQ l → ∀ c ∈ f, c ∈ l := by
  intro l
  induction l with
  | nil =>
    intro inQ f hf c hc
    simp only [parseCSVLineAux, List.mem_singleton] at hf
    rw [hf] at hc
    exact absurd hc (List.not_mem_nil c)
  | cons a cs ih =>
    intro inQ f hf c hc
    rw [parseCSVLineAux] at hf
    by_cases hq : a = '"'
    · rw [if_pos hq] at hf
      exact List.mem_cons_of_mem a (ih (!inQ) f hf c hc)
    · rw [if_neg hq] at hf
      by_cases hcm : a = ',' ∧ inQ = false
      · rw [if_pos hcm] at hf
        rcases List.mem_cons.mp hf with rfl | hf'
        · exact absurd hc (List.not_mem_nil c)
        · exact List.mem_cons_of_mem a (ih inQ f hf' c hc)
      · rw [if_neg hcm] at hf
        rcases hsp : parseCSVLineAux inQ cs with _ | ⟨g, gs⟩
        · rw [hsp] at hf
          simp only [List.mem_singleton] at hf
          rw [hf] at hc
          rcases List.mem_cons.mp hc with rfl | hc'
          · exact List.mem_cons_self c cs
          · exact absurd hc' (List.not_mem_nil c)
        · rw [hsp] at hf
          rcases List.mem_cons.mp hf with rfl | hf'
          · rcases List.mem_cons.mp hc with rfl | hc'
            · exact List.mem_cons_self c cs
            · exact List.mem_cons_of_mem a
                (ih inQ g (hsp ▸ List.mem_cons_self g gs) c hc')
          · exact List.mem_cons_of_mem a
              (ih inQ f (hsp ▸ List.mem_cons_of_mem g hf') c hc)

theorem aux_single_eq :
    ∀ l : List Char, '"' ∉ l →
      ∀ f : List Char, parseCSVLineAux false l = [f] → f = l := by
  intro l
  induction l with
  | nil =>
    intro _ f hf
    simp only [parseCSVLineAux, List.cons.injEq] at hf
    exact hf.1.symm
  | cons c cs ih =>
    intro hq f hf
    have hcq : c ≠ '"' := fun h => hq (h ▸ List.mem_cons_self c cs)
    have hcsq : '"' ∉ cs := fun h => hq (List.mem_cons_of_mem c h)
    rw [parseCSVLineAux, if_neg hcq] at hf
    by_cases hc : c = ',' ∧ (false : Bool) = false
    · rw [if_pos hc] at hf
      have := aux_ne_nil false cs
      rcases hsp : parseCSVLineAux false cs with _ | ⟨g, gs⟩
      · exact absurd hsp this
      · rw [hsp] at hf
        exact absurd hf (by simp)
    · rw [if_neg hc] at hf
      rcases hsp : parseCSVLineAux false cs with _ | ⟨g, gs⟩
      · exact absurd hsp (aux_ne_nil false cs)
      · rw [hsp] at hf
        simp only [List.cons.injEq] at hf
        obtain ⟨hfg, hgs⟩ := hf
        have : g = cs := ih hcsq g (by rw [hsp, hgs])
        rw [← hfg, this]

/-! #### joinSep facts -/

theorem joinSep_mem :
    ∀ (fs : List (List Char)) (c : Char), c ∈ joinSep [','] fs →
      c = ',' ∨ ∃ f ∈ fs, c ∈ f := by
  intro fs
  induction fs with
  | nil => intro c hc; exact absurd hc (List.not_mem_nil c)
  | cons f t ih =>
    intro c hc
    cases t with
    | nil =>
      exact Or.inr ⟨f, List.mem_cons_self f [], hc⟩
    | cons f' t' =>
      rw [show joinSep [','] (f :: f' :: t') = f ++ [','] ++ joinSep [','] (f' :: t')
          from rfl] at hc
      rcases List.mem_append.mp hc with hc1 | hc2
      · rcases List.mem_append.mp hc1 with hcf | hcomma
        · exact Or.inr ⟨f, List.mem_cons_self f _, hcf⟩
        · simp only [List.mem_singleton] at hcomma
          exact Or.inl hcomma
      · rcases ih c hc2 with h | ⟨g, hg, hcg⟩
        · exact Or.inl h
        · exact Or.inr ⟨g, List.mem_cons_of_mem f hg, hcg⟩

theorem joinSep_comma_mem (f f' : List Char) (t : List (List Char)) :
    ',' ∈ joinSep [','] (f :: f' :: t) := by
  rw [show joinSep [','] (f :: f' :: t) = f ++ [','] ++ joinSep [','] (f' :: t)
    from rfl]
  exact List.mem_append.mpr (Or.inl (List.mem_append.mpr (Or.inr (by simp))))

/-! #### Per-line round trip and serialization -/

theorem line_roundtrip (l : List Char) (hq : '"' ∉ l) (hnl : '\n' ∉ l)
    (htrim : jsTrim l ≠ []) :
    parseCSVLineChars (joinSep [','] (parseCSVLineChars l)) = parseCSVLineChars l ∧
    jsTrim (joinSep [','] (parseCSVLineChars l)) ≠ [] ∧
    '\n' ∉ joinSep [','] (parseCSVLineChars l) ∧
    (∀ f ∈ parseCSVLineChars l, ',' ∉ f ∧ '\n' ∉ f) := by
  have hfs0 := aux_fields_plain l hq
  have hfs : ∀ f ∈ parseCSVLineChars l,
      '"' ∉ f ∧ ',' ∉ f ∧ '\n' ∉ f ∧ jsTrim f = f := by
    intro f hf
    obtain ⟨f0, hf0, rfl⟩ := List.mem_map.mp hf
    obtain ⟨h1, h2⟩ := hfs0 f0 hf0
    exact ⟨fun h => h1 ((jsTrim_sublist f0).subset h),
           fun h => h2 ((jsTrim_sublist f0).subset h),
           fun h => hnl (aux_mem_chars l false f0 hf0 _ ((jsTrim_sublist f0).subset h)),
           jsTrim_idem f0⟩
  have hne : parseCSVLineChars l ≠ [] := by
    unfold parseCSVLineChars
    intro hnil
    exact aux_ne_nil false l (List.map_eq_nil_iff.mp hnil)
  have hauxj : parseCSVLineAux false (joinSep [','] (parseCSVLineChars l))
      = parseCSVLineChars l :=
    aux_joinSep _ hne (fun f hf => ⟨(hfs f hf).1, (hfs f hf).2.1⟩)
  refine ⟨?_, ?_, ?_, fun f hf => ⟨(hfs f hf).2.1, (hfs f hf).2.2.1⟩⟩
  · show (parseCSVLineAux false (joinSep [','] (parseCSVLineChars l))).map jsTrim = _
    rw [hauxj, List.map_congr_left (fun f hf => (hfs f hf).2.2.2),
      List.map_id']
  · rcases haux : parseCSVLineAux false l with _ | ⟨f0, rest0⟩
    · exact absurd haux (aux_ne_nil false l)
    · cases rest0 with
      | nil =>
        have hf0 : f0 = l := aux_single_eq l hq f0 haux
        have hchars : parseCSVLineChars l = [jsTrim l] := by
          unfold parseCSVLineChars
          rw [haux, hf0]
          rfl
        rw [hchars]
        show jsTrim (jsTrim l) ≠ []
        rw [jsTrim_idem]
        exact htrim
      | cons f1 rest1 =>
        have hchars : parseCSVLineChars l
            = jsTrim f0 :: jsTrim f1 :: rest1.map jsTrim := by
          unfold parseCSVLineChars
          rw [haux]
          rfl
        rw [hchars]
        exact jsTrim_ne_nil_of_mem _ ',' (joinSep_comma_mem _ _ _) (by decide)
  · intro hmem
    rcases joinSep_mem _ '\n' hmem with h | ⟨f, hf, hcf⟩
    · exact absurd h (by decide)
    · exact (hfs f hf).2.2.1 hcf

theorem contains_eq_false (l : List Char) (c : Char) (h : c ∉ l) :
    l.contains c = false := by
  rw [Bool.eq_false_iff]
  intro hc
  exact h (List.elem_iff.mp hc)

theorem serializeRow_plain (fs : List (List Char))
    (hfs : ∀ f ∈ fs, ',' ∉ f ∧ '\n' ∉ f) :
    serializeRow (fs.map (Field.str ∘ String.mk)) = joinSep [','] fs := by
  unfold serializeRow
  rw [List.map_map]
  congr 1
  have hcong : ∀ f ∈ fs, (serializeField ∘ (Field.str ∘ String.mk)) f = f := by
    intro f hf
    show serializeField (Field.str (String.mk f)) = f
    have h1 : (String.mk f).data.contains ',' = false :=
      contains_eq_false f ',' (hfs f hf).1
    have h2 : (String.mk f).data.contains '\n' = false :=
      contains_eq_false f '\n' (hfs f hf).2
    simp only [serializeField, h1, h2]
    rfl
  rw [List.map_congr_left hcong, List.map_id']

theorem map_data_mk : ∀ fs : List (List Char), (fs.map String.mk).map String.data = fs := by
  intro fs
  induction fs with
  | nil => rfl
  | cons f t ih =>
    simp only [List.map_cons]
    show f :: (t.map String.mk).map String.data = f :: t
    rw [ih]

/-! #### The round trip for `parseCSV` -/

/-- Parsing quote-free content and serializing the dataset back, then
parsing again, recovers exactly the same dataset (rows, headers and
recomputed statistics included). -/
theorem parse_serialize_roundtrip (c : String) (ds : Dataset)
    (hq : '"' ∉ c.data) (hp : parseCSV c = some ds) :
    parseCSV (serializeTable ds) = some ds := by
  unfold parseCSV at hp
  rcases hLines : (splitNl c.data).filter (fun l => !(jsTrim l).isEmpty) with _ | ⟨l0, rest⟩
  · rw [hLines] at hp
    exact absurd hp (by simp)
  rw [hLines] at hp
  simp only [Option.some.injEq] at hp
  subst hp
  have hlineFacts : ∀ l ∈ l0 :: rest, '"' ∉ l ∧ '\n' ∉ l ∧ jsTrim l ≠ [] := by
    intro l hl
    have hl' : l ∈ (splitNl c.data).filter (fun x => !(jsTrim x).isEmpty) := by
      rw [hLines]
      exact hl
    have hmem := List.mem_of_mem_filter hl'
    have hpred := List.of_mem_filter hl'
    refine ⟨fun hqc => hq (splitNl_mem_chars c.data l hmem '"' hqc),
            splitNl_no_newline c.data l hmem, ?_⟩
    intro hnil
    rw [hnil] at hpred
    exact absurd hpred (by decide)
  have hRT := fun l hl => line_roundtrip l (hlineFacts l hl).1 (hlineFacts l hl).2.1
    (hlineFacts l hl).2.2
  have hchars : (serializeTable
      { headers := (parseCSVLineChars l0).map String.mk
        rows := rest.map (fun l => ((parseCSVLineChars l).map String.mk).map Field.str)
        stats :=
          { totalRows := rest.length
            missingValues := mvOfRows ((parseCSVLineChars l0).map String.mk)
              (rest.map (fun l => ((parseCSVLineChars l).map String.mk).map Field.str)) } }).data
      = (((l0 :: rest).map (fun l => joinSep [','] (parseCSVLineChars l))).map
          (fun l => l ++ ['\n'])).flatten := by
    show (joinSep [','] (((parseCSVLineChars l0).map String.mk).map String.data) ++ ['\n'])
        ++ ((rest.map (fun l => ((parseCSVLineChars l).map String.mk).map Field.str)).map
            (fun r => serializeRow r ++ ['\n'])).flatten
      = _
    rw [map_data_mk]
    have hrows : (rest.map (fun l => ((parseCSVLineChars l).map String.mk).map Field.str)).map
        (fun r => serializeRow r ++ ['\n'])
        = rest.map (fun l => joinSep [','] (parseCSVLineChars l) ++ ['\n']) := by
      rw [List.map_map]
      apply List.map_congr_left
      intro l hl
      show serializeRow (((parseCSVLineChars l).map String.mk).map Field.str) ++ ['\n'] = _
      rw [List.map_map,
        serializeRow_plain _ (hRT l (List.mem_cons_of_mem l0 hl)).2.2.2]
    rw [hrows]
    simp only [List.map_cons, List.map_map, List.flatten_cons]
    rfl
  unfold parseCSV
  rw [hchars,
    splitNl_flatten_lines _ (by
      intro l' hl'
      obtain ⟨l, hl, rfl⟩ := List.mem_map.mp hl'
      exact (hRT l hl).2.2.1),
    List.filter_append,
    List.filter_eq_self.mpr (by
      intro l' hl'
      obtain ⟨l, hl, rfl⟩ := List.mem_map.mp hl'
      rw [Bool.not_eq_true']
      exact List.isEmpty_eq_false.mpr (hRT l hl).2.1),
    show List.filter (fun l => !(jsTrim l).isEmpty) [([] : List Char)] = [] from rfl,
    List.append_nil]
  simp only [List.map_cons]
  refine congrArg some ?_
  have hH : parseCSVLineChars (joinSep [','] (parseCSVLineChars l0)) = parseCSVLineChars l0 :=
    (hRT l0 (List.mem_cons_self l0 rest)).1
  have hRows : (rest.map (fun l => joinSep [','] (parseCSVLineChars l))).map
      (fun l => ((parseCSVLineChars l).map String.mk).map Field.str)
      = rest.map (fun l => ((parseCSVLineChars l).map String.mk).map Field.str) := by
    rw [List.map_map]
    apply List.map_congr_left
    intro l hl
    show ((parseCSVLineChars (joinSep [','] (parseCSVLineChars l))).map String.mk).map Field.str
      = _
    rw [(hRT l (List.mem_cons_of_mem l0 hl)).1]
  simp only [Dataset.mk.injEq, Stats.mk.injEq]
  refine ⟨by rw [hH], hRows, by simp, ?_⟩
  rw [hH, hRows]

/-- Claim C6: for quote-free content (no double quotes anywhere, hence no
pre-existing quoting — which forces every parsed field to be free of
commas, line breaks and quotes and to carry no leading or trailing
whitespace, since the parser trims), parse-then-serialize is idempotent:
applying it to its own output yields the same text. -/
theorem parse_serialize_idempotent (c : String) (ds : Dataset)
    (hq : '"' ∉ c.data) (hp : parseCSV c = some ds) :
    (parseCSV (serializeTable ds)).map serializeTable = some (serializeTable ds) := by
  rw [parse_serialize_roundtrip c ds hq hp]
  rfl

/-- Witness for claim C6 on the spec's example content. -/
theorem parse_serialize_idempotent_witness :
    (parseCSV (serializeTable exC8)).map serializeTable = some (serializeTable exC8) :=
  parse_serialize_idempotent "name,age\nAnn,30\nBob,\n,25" exC8 (by decide) (by decide)

end CsvClean
